import Mathlib

/-!
Shallow embedding of the `vise` metrics library core (crates/vise, crates/vise-exporter)
for checking its natural-language specification.

Modelling conventions:

* Rust `f64` arithmetic in bucket generation is modelled exactly over `ℚ`
  (the bucket generators only multiply, add and compare, and the spec states the
  generation rules mathematically); the dedicated bit-level comparator
  `compare_f64` is instead modelled on the actual IEEE-754 bit patterns as `ℕ`.
* Rust strings are modelled as `List Char`; the streaming format translator
  (`PrometheusWrapper`) is a state machine whose writer output is kept as the
  list of emitted lines (each physically followed by a newline in the source).
* `panic!` and `fmt::Error` are modelled with `Except`.
-/

namespace Vise

/-! ### Buckets (src/crates/vise/src/buckets.rs)

`BucketsInner::Scaled { start, end, factors }` iterates
`starts = successors start (· * greatest_factor)` flat-mapped with
`(1.0 :: smaller_factors).map (start * ·)`, truncated with
`take_while (· <= end)`.  `ScaledBuckets.stop` models the `end` field
(`end` is a reserved word in Lean). -/

structure ScaledBuckets where
  start : ℚ
  stop : ℚ
  factors : List ℚ

/-- Models `*factors.last().unwrap()` (the code unwraps; default never used on valid input). -/
def ScaledBuckets.greatestFactor (b : ScaledBuckets) : ℚ :=
  b.factors.getLastD 1

/-- Models `&factors[..factors.len() - 1]`. -/
def ScaledBuckets.smallerFactors (b : ScaledBuckets) : List ℚ :=
  b.factors.dropLast

/-- Per-octave multipliers: `iter::once(1.0).chain(smaller_factors)`. -/
def ScaledBuckets.harmonics (b : ScaledBuckets) : List ℚ :=
  1 :: b.smallerFactors

/-- The `starts` iterator: `iter::successors(Some(start), |v| Some(v * greatest_factor))`. -/
def ScaledBuckets.octaveStart (b : ScaledBuckets) : ℕ → ℚ
  | 0 => b.start
  | k + 1 => b.octaveStart k * b.greatestFactor

/-- Element `j` of the flat-mapped (still untruncated) stream produced by
`BucketsInner::iter` in the `Scaled` arm. -/
def ScaledBuckets.stream (b : ScaledBuckets) (j : ℕ) : ℚ :=
  b.octaveStart (j / b.factors.length) * (b.harmonics.getD (j % b.factors.length) 1)

/-- The realized bucket list: the stream truncated by `take_while (· <= end)`.
The infinite Rust iterator is approximated by its first `fuel` elements. -/
def ScaledBuckets.buckets (b : ScaledBuckets) (fuel : ℕ) : List ℚ :=
  ((List.range fuel).map b.stream).takeWhile (fun v => v ≤ b.stop)

/-- Validity checks performed by `Buckets::scaled` (each `assert!`/`compile_assert!`):
positive start, non-empty range, at least one factor, factors greater than 1 and
monotonically increasing. -/
def ScaledBuckets.Valid (b : ScaledBuckets) : Prop :=
  0 < b.start ∧ b.start < b.stop ∧ b.factors ≠ [] ∧
    (∀ f ∈ b.factors, 1 < f) ∧ b.factors.Chain' (· < ·)

/-! `Buckets::iter` post-processing (mirroring and bias), for an arbitrary realized
base sequence.  Mirrors the source:

* if `mirrored`, the collected base is reversed, every strictly positive value is
  negated (`filter_map (|v| (v > 0.0).then_some(-v))`) and the result is chained
  before the base;
* finally every value is shifted by `bias` (`map (|v| v + self.bias)`). -/

def bucketsIter (base : List ℚ) (mirrored : Bool) (bias : ℚ) : List ℚ :=
  let withMirror :=
    if mirrored then
      (base.reverse.filterMap (fun v => if 0 < v then some (-v) else none)) ++ base
    else base
  withMirror.map (fun v => v + bias)

/-! ### Gauge and its guard (src/crates/vise/src/wrappers.rs)

`Gauge<i64>` stores one `AtomicI64`; `inc_by`/`dec_by` are `fetch_add`/`fetch_sub`,
which wrap around on overflow.  The cell contents are modelled as a
wrapped-into-range `ℤ`. -/

/-- Wrapping of a mathematical integer into the `i64` range. -/
def wrapI64 (x : ℤ) : ℤ :=
  (x + 2 ^ 63) % 2 ^ 64 - 2 ^ 63

/-- `Gauge::inc_by` on the shared cell value. -/
def gaugeIncBy (g v : ℤ) : ℤ :=
  wrapI64 (g + v)

/-- `Gauge::dec_by` on the shared cell value. -/
def gaugeDecBy (g v : ℤ) : ℤ :=
  wrapI64 (g - v)

/-- `Gauge::inc_guard(v)`: increments the gauge and returns the guard's stored
increment together with the new cell value. -/
def gaugeIncGuard (g v : ℤ) : ℤ × ℤ :=
  (v, gaugeIncBy g v)

/-- `impl Drop for GaugeGuard`: decrements the gauge by the stored increment. -/
def gaugeGuardDrop (increment g : ℤ) : ℤ :=
  gaugeDecBy g increment

/-! ### Export formats and content types
(src/crates/vise/src/format.rs, src/crates/vise-exporter/src/exporter/mod.rs) -/

inductive Format where
  | openMetrics
  | prometheus
  | openMetricsForPrometheus
deriving DecidableEq

def OPEN_METRICS_CONTENT_TYPE : String :=
  "application/openmetrics-text; version=1.0.0; charset=utf-8"

def PROMETHEUS_CONTENT_TYPE : String :=
  "text/plain; version=0.0.4; charset=utf-8"

/-- Content type chosen by `MetricsExporterInner::render`:
`if matches!(self.format, Format::Prometheus) { PROMETHEUS } else { OPEN_METRICS }`. -/
def renderContentType (format : Format) : String :=
  if format = Format.prometheus then PROMETHEUS_CONTENT_TYPE else OPEN_METRICS_CONTENT_TYPE

/-! ### Family (src/crates/vise/src/wrappers.rs, `FamilyInner`)

`FamilyInner` holds an append-only `FrozenMap<S, Box<M>>`; `get_or_create`
returns the existing entry or inserts a freshly built metric.  Metric instances
have reference identity (cloning shares storage), modelled by allocating a fresh
numeric id per built instance; "same instance" is "same id".  Entries are kept
in insertion order as an association list. -/

structure FamilyState (S : Type) where
  entries : List (S × ℕ)
  nextId : ℕ

/-- Association-list lookup, modelling `FrozenMap::get`. -/
def assocFind {S : Type} [DecidableEq S] (labels : S) : List (S × ℕ) → Option ℕ
  | [] => none
  | e :: rest => if e.1 = labels then some e.2 else assocFind labels rest

/-- `FamilyInner::get_or_create`: return the existing metric for `labels`, or
insert a newly built one (`insert_with`). -/
def getOrCreate {S : Type} [DecidableEq S] (st : FamilyState S) (labels : S) :
    ℕ × FamilyState S :=
  match assocFind labels st.entries with
  | some id => (id, st)
  | none => (st.nextId, ⟨st.entries ++ [(labels, st.nextId)], st.nextId + 1⟩)

/-- `Family::contains`. -/
def familyContains {S : Type} [DecidableEq S] (st : FamilyState S) (labels : S) : Bool :=
  (assocFind labels st.entries).isSome

/-- `Family::get`. -/
def familyGet {S : Type} [DecidableEq S] (st : FamilyState S) (labels : S) : Option ℕ :=
  assocFind labels st.entries

/-- A sequence of `get_or_create` accesses (one per element of `ops`). -/
def familyRun {S : Type} [DecidableEq S] (st : FamilyState S) : List S → FamilyState S
  | [] => st
  | labels :: rest => familyRun (getOrCreate st labels).2 rest

/-! ### Descriptors and registration (src/crates/vise/src/descriptors.rs,
src/crates/vise/src/registry.rs)

`Unit` is modelled by its suffix string (`unit.as_str()`).  `panic!` in
`RegisteredDescriptors::push` is modelled as `Except.error` carrying the
offending metric name and both descriptors; the panic message is rebuilt by
`panicMessage`. -/

structure MetricDescriptor where
  name : String
  field_name : String
  unit : Option String
  help : String
deriving DecidableEq

/-- `MetricDescriptor::full_name`: name plus unit suffix. -/
def MetricDescriptor.full_name (d : MetricDescriptor) : String :=
  match d.unit with
  | some u => d.name ++ "_" ++ u
  | none => d.name

structure MetricGroupDescriptor where
  crate_name : String
  crate_version : String
  module_path : String
  name : String
  line : ℕ
  metrics : List MetricDescriptor
deriving DecidableEq

structure FullMetricDescriptor where
  group : MetricGroupDescriptor
  metric : MetricDescriptor
deriving DecidableEq

/-- `FullMetricDescriptor::format_for_panic`. -/
def FullMetricDescriptor.format_for_panic (d : FullMetricDescriptor) : String :=
  d.group.module_path ++ "::" ++ d.group.name ++ "." ++ d.metric.field_name ++
    " (line " ++ (toString d.group.line) ++ ") in crate " ++ d.group.crate_name ++
    " " ++ d.group.crate_version

/-- Data carried by the `panic!` in `RegisteredDescriptors::push`. -/
structure DuplicateMetricError where
  metric_name : String
  descriptor : FullMetricDescriptor
  prev_descriptor : FullMetricDescriptor
deriving DecidableEq

/-- The panic message of `RegisteredDescriptors::push`. -/
def DuplicateMetricError.panicMessage (e : DuplicateMetricError) : String :=
  "Metric `" ++ e.metric_name ++ "` is redefined. New definition is at " ++
    e.descriptor.format_for_panic ++ ", previous definition was at " ++
    e.prev_descriptor.format_for_panic

/-- The `name -> descriptor` map (`metrics_by_name`), as an association list. -/
def descFind (name : String) : List (String × FullMetricDescriptor) →
    Option FullMetricDescriptor
  | [] => none
  | e :: rest => if e.1 = name then some e.2 else descFind name rest

structure RegisteredDescriptors where
  groups : List MetricGroupDescriptor
  metrics_by_name : List (String × FullMetricDescriptor)

/-- The field loop of `RegisteredDescriptors::push`: inserts each metric of the
group into `metrics_by_name`, failing on the first full-name collision. -/
def pushFields (group : MetricGroupDescriptor) :
    List MetricDescriptor → List (String × FullMetricDescriptor) →
    Except DuplicateMetricError (List (String × FullMetricDescriptor))
  | [], m => Except.ok m
  | field :: rest, m =>
    let descriptor : FullMetricDescriptor := ⟨group, field⟩
    let metricName := field.full_name
    match descFind metricName m with
    | some prev => Except.error ⟨metricName, descriptor, prev⟩
    | none => pushFields group rest (m ++ [(metricName, descriptor)])

/-- `RegisteredDescriptors::push`. -/
def RegisteredDescriptors.push (d : RegisteredDescriptors)
    (group : MetricGroupDescriptor) :
    Except DuplicateMetricError RegisteredDescriptors := do
  let m ← pushFields group group.metrics d.metrics_by_name
  Except.ok ⟨d.groups ++ [group], m⟩

/-- Registry state relevant to registration: the descriptor index plus the
encodable-metric collection (`inner`), abstracted as the list of full names of
metrics that were actually visited (and would thus be encoded). -/
structure Registry where
  descriptors : RegisteredDescriptors
  encodable : List String

/-- `Registry::register_metrics`: `self.descriptors.push(&M::DESCRIPTOR)` first
(panicking on a duplicate name), and only then `metrics.visit_metrics(self)`,
which feeds the encodable collection.  A duplicate therefore faults before the
group contributes anything that a later `encode` call could see. -/
def Registry.register_metrics (reg : Registry) (group : MetricGroupDescriptor) :
    Except DuplicateMetricError Registry := do
  let d ← reg.descriptors.push group
  Except.ok ⟨d, reg.encodable ++ group.metrics.map MetricDescriptor.full_name⟩

/-! ### Compile-time `f64` comparison (src/crates/vise/src/buckets.rs)

`compare_f64` works on the raw IEEE-754 bit pattern (`u64`, modelled as `ℕ`
below `2 ^ 64`), decomposed with fixed masks. -/

def FRACTION_MASK : ℕ := (1 <<< 52) - 1

def EXPONENT_MASK : ℕ := 0x7ff <<< 52

def SIGN_MASK : ℕ := 1 <<< 63

structure DecomposedF64 where
  sign_bit : ℕ
  exponent_bits : ℕ
  fraction_bits : ℕ

/-- `DecomposedF64::new`. -/
def DecomposedF64.new (bits : ℕ) : DecomposedF64 :=
  ⟨bits &&& SIGN_MASK, bits &&& EXPONENT_MASK, bits &&& FRACTION_MASK⟩

def DecomposedF64.is_zero (d : DecomposedF64) : Prop :=
  d.exponent_bits = 0 ∧ d.fraction_bits = 0

def DecomposedF64.is_subnormal (d : DecomposedF64) : Prop :=
  d.exponent_bits = 0 ∧ d.fraction_bits ≠ 0

def DecomposedF64.is_nan (d : DecomposedF64) : Prop :=
  d.exponent_bits = EXPONENT_MASK ∧ d.fraction_bits ≠ 0

instance (d : DecomposedF64) : Decidable d.is_zero := by unfold DecomposedF64.is_zero; exact inferInstance

instance (d : DecomposedF64) : Decidable d.is_subnormal := by unfold DecomposedF64.is_subnormal; exact inferInstance

instance (d : DecomposedF64) : Decidable d.is_nan := by unfold DecomposedF64.is_nan; exact inferInstance

/-- `compare_u64` (const `u64` comparison). -/
def compare_u64 (lhs rhs : ℕ) : Ordering :=
  if lhs < rhs then Ordering.lt
  else if lhs > rhs then Ordering.gt
  else Ordering.eq

/-- `compare_f64` on bit patterns.  `Ordering.swap` models `cmp::Ordering::reverse`. -/
def compare_f64 (lhsBits rhsBits : ℕ) : Option Ordering :=
  let lhs := DecomposedF64.new lhsBits
  let rhs := DecomposedF64.new rhsBits
  if lhs.is_nan ∨ rhs.is_nan ∨ lhs.is_subnormal ∨ rhs.is_subnormal then none
  else if lhs.is_zero ∧ rhs.is_zero then some Ordering.eq
  else
    let sign_ordering := (compare_u64 lhs.sign_bit rhs.sign_bit).swap
    if sign_ordering ≠ Ordering.eq then some sign_ordering
    else
      let exponent_ordering := compare_u64 lhs.exponent_bits rhs.exponent_bits
      let exponent_ordering :=
        if lhs.sign_bit ≠ 0 then exponent_ordering.swap else exponent_ordering
      if exponent_ordering ≠ Ordering.eq then some exponent_ordering
      else
        let fraction_ordering := compare_u64 lhs.fraction_bits rhs.fraction_bits
        let fraction_ordering :=
          if lhs.sign_bit ≠ 0 then fraction_ordering.swap else fraction_ordering
        some fraction_ordering

/-! Reference semantics: the value denoted by an IEEE-754 binary64 bit pattern,
as an extended rational (`⊥` is `-∞`, the embedded `⊤` of `WithTop ℚ` is `+∞`),
and the native partial comparison (`f64::partial_cmp`) derived from it. -/

/-- Extended rationals. -/
abbrev XRat : Type := WithBot (WithTop ℚ)

/-- Embedding of a finite rational value into `XRat`. -/
def XRat.fin (q : ℚ) : XRat := ((q : WithTop ℚ) : XRat)

/-- Positive infinity in `XRat`. -/
def XRat.pinf : XRat := ((⊤ : WithTop ℚ) : XRat)

/-- Negative infinity in `XRat`. -/
def XRat.ninf : XRat := (⊥ : XRat)

/-- The sign field of a bit pattern (bit 63). -/
def signField (bits : ℕ) : ℕ := bits / 2 ^ 63 % 2

/-- The biased exponent field of a bit pattern (bits 52..=62). -/
def expField (bits : ℕ) : ℕ := bits / 2 ^ 52 % 2 ^ 11

/-- The fraction field of a bit pattern (bits 0..=51). -/
def fracField (bits : ℕ) : ℕ := bits % 2 ^ 52

/-- The finite value represented by (sign, biased exponent, fraction):
`(-1)^s * m * 2^(E - 1075)` where for a normal number `m = 2^52 + f` and
`E = e`, and for zero or a subnormal `m = f` and `E = 1`. -/
def finiteVal (s e f : ℕ) : ℚ :=
  (if s = 0 then 1 else -1) * (if e = 0 then (f : ℚ) else 2 ^ 52 + (f : ℚ)) *
    (2 : ℚ) ^ ((if e = 0 then 1 else (e : ℤ)) - 1075)

/-- IEEE-754 binary64 denotation of a bit pattern: `none` for NaN, otherwise an
extended rational. -/
def semVal (bits : ℕ) : Option XRat :=
  if expField bits = 0x7ff then
    if fracField bits = 0 then
      some (if signField bits = 0 then XRat.pinf else XRat.ninf)
    else none
  else some (XRat.fin (finiteVal (signField bits) (expField bits) (fracField bits)))

/-- `f64::partial_cmp` on bit patterns: `None` when either side is NaN, otherwise
the linear-order comparison of the denoted extended rationals. -/
def f64PartialCmp (lhsBits rhsBits : ℕ) : Option Ordering :=
  match semVal lhsBits, semVal rhsBits with
  | some a, some b => some (cmp a b)
  | _, _ => none

/-- NaN, as a property of the bit pattern fields. -/
def IsNanBits (bits : ℕ) : Prop := expField bits = 0x7ff ∧ fracField bits ≠ 0

/-- Subnormal (nonzero with zero biased exponent), as a property of the fields. -/
def IsSubnormalBits (bits : ℕ) : Prop := expField bits = 0 ∧ fracField bits ≠ 0

/-- A (positive or negative) zero, as a property of the fields. -/
def IsZeroBits (bits : ℕ) : Prop := expField bits = 0 ∧ fracField bits = 0

instance (bits : ℕ) : Decidable (IsNanBits bits) := by unfold IsNanBits; exact inferInstance

instance (bits : ℕ) : Decidable (IsSubnormalBits bits) := by unfold IsSubnormalBits; exact inferInstance

instance (bits : ℕ) : Decidable (IsZeroBits bits) := by unfold IsZeroBits; exact inferInstance

/-! ### Streaming format translator (src/crates/vise/src/format.rs)

`PrometheusWrapper` is a line-buffered state machine.  Lines are `List Char`;
the writer output is the list of emitted lines (the source writes each followed
by one newline).  `fmt::Error` is `Except.error ()`. -/

inductive MetricType where
  | counter
  | gauge
  | histogram
  | info
  | unknown
deriving DecidableEq

structure MetricTypeDefinition where
  name : List Char
  ty : MetricType
deriving DecidableEq

/-- Rust `u8::is_ascii_whitespace`: space, horizontal tab, newline, form feed,
carriage return. -/
def isAsciiWhitespace (c : Char) : Bool :=
  c = ' ' || c = '\t' || c = '\n' || c = Char.ofNat 12 || c = '\r'

/-- Rust `str::trim` (whitespace at both ends removed; the exposition streams in
play are ASCII, so only ASCII whitespace is modelled). -/
def rustTrim (s : List Char) : List Char :=
  ((s.dropWhile (fun c => isAsciiWhitespace c)).reverse.dropWhile
    (fun c => isAsciiWhitespace c)).reverse

/-- Rust `str::split_once(pred)`: split at the first character satisfying `p`,
which is removed; `none` when no character matches. -/
def splitOnceP (p : Char → Bool) : List Char → Option (List Char × List Char)
  | [] => none
  | c :: rest =>
    if p c then some ([], rest)
    else (splitOnceP p rest).map (fun q => (c :: q.1, q.2))

/-- Rust `str::find(pred)` followed by `split_at`: the first component is the
maximal matching-free strict prefix, the second starts with the first character
satisfying `p`; `none` when no character matches. -/
def findSplit (p : Char → Bool) : List Char → Option (List Char × List Char)
  | [] => none
  | c :: rest =>
    if p c then some ([], c :: rest)
    else (findSplit p rest).map (fun q => (c :: q.1, q.2))

/-- Rust `str::strip_prefix`. -/
def stripPre (pre s : List Char) : Option (List Char) :=
  if pre.isPrefixOf s then some (s.drop pre.length) else none

/-- Rust `str::strip_suffix`. -/
def stripSuf (suf s : List Char) : Option (List Char) :=
  (stripPre suf.reverse s.reverse).map List.reverse

/-- `MetricTypeDefinition::parse`: trim, split at the first ASCII whitespace into
name and type token, map the token to a metric type (anything else is Unknown). -/
def MetricTypeDefinition.parse (line : List Char) :
    Except Unit MetricTypeDefinition :=
  match splitOnceP isAsciiWhitespace (rustTrim line) with
  | none => Except.error ()
  | some (name, ty) =>
    Except.ok ⟨name,
      if ty = ("counter").toList then MetricType.counter
      else if ty = ("gauge").toList then MetricType.gauge
      else if ty = ("histogram").toList then MetricType.histogram
      else if ty = ("info").toList then MetricType.info
      else MetricType.unknown⟩

structure PrometheusWrapper where
  remove_eof_terminator : Bool
  translate_info_metrics_type : Bool
  last_metric_definition : Option MetricTypeDefinition
  last_line : List Char
  out : List (List Char)
deriving DecidableEq

/-- The `# EOF` terminator line. -/
def eofLine : List Char := ("# EOF").toList

/-- The `# TYPE ` line marker. -/
def typeMarker : List Char := ("# TYPE ").toList

/-- The metric-value-line rewrite of `PrometheusWrapper::handle_line`: for the
last TYPE-declared counter (resp. info) metric, strip a trailing `_total`
(resp. `_info`) suffix from the sample line's metric name when the stripped
name matches the declared one. -/
def valueLineTransform (mdopt : Option MetricTypeDefinition) (name rest : List Char) :
    Option (List Char) :=
  match mdopt with
  | some metric_def =>
    match metric_def.ty with
    | MetricType.counter =>
      match stripSuf (("_total").toList) name with
      | some truncated_name =>
        if truncated_name = metric_def.name then some (metric_def.name ++ rest)
        else none
      | none => none
    | MetricType.info =>
      match stripSuf (("_info").toList) name with
      | some truncated_name =>
        if truncated_name = metric_def.name then some (metric_def.name ++ rest)
        else none
      | none => none
    | _ => none
  | none => none

/-- `PrometheusWrapper::handle_line`: takes the buffered line (clearing the
buffer), optionally skips the EOF terminator, rewrites TYPE lines of Info
metrics and the names of counter and info sample lines, and writes the
(possibly transformed) line. -/
def handleLine (w : PrometheusWrapper) : Except Unit PrometheusWrapper :=
  let line := w.last_line
  if line = eofLine ∧ w.remove_eof_terminator then Except.ok { w with last_line := [] }
  else
    match stripPre typeMarker line with
    | some type_def =>
      match MetricTypeDefinition.parse type_def with
      | Except.error e => Except.error e
      | Except.ok metric_def =>
        let transformed_line :=
          if w.translate_info_metrics_type ∧ metric_def.ty = MetricType.info then
            some (typeMarker ++ metric_def.name ++ (" gauge").toList)
          else none
        Except.ok { w with
          last_line := []
          last_metric_definition := some metric_def
          out := w.out ++ [transformed_line.getD line] }
    | none =>
      if line.head? = some '#' then
        Except.ok { w with last_line := [], out := w.out ++ [line] }
      else
        match findSplit (fun c => c = Char.ofNat 123 || isAsciiWhitespace c) line with
        | none => Except.error ()
        | some (name, rest) =>
          Except.ok { w with
            last_line := []
            out := w.out ++
              [(valueLineTransform w.last_metric_definition name rest).getD line] }

/-- Splitting on `'\n'`, keeping every segment (including a trailing empty one). -/
def splitNl : List Char → List (List Char)
  | [] => [[]]
  | c :: rest =>
    if c = '\n' then [] :: splitNl rest
    else
      match splitNl rest with
      | [] => [[c]]
      | h :: t => (c :: h) :: t

/-- One trailing carriage return removed (for a line terminated by `'\n'`). -/
def stripCr (l : List Char) : List Char :=
  if l.getLast? = some '\r' then l.dropLast else l

/-- Rust `str::lines`: split on `'\n'`; every `'\n'`-terminated segment gets one
trailing `'\r'` stripped; a final unterminated segment is kept verbatim, and a
trailing empty segment (the string ended with `'\n'`) is dropped. -/
def rustLines (s : List Char) : List (List Char) :=
  let segs := splitNl s
  let terminated := segs.dropLast.map stripCr
  match segs.getLast? with
  | some [] => terminated
  | some l => terminated ++ [l]
  | none => terminated

/-- The loop body of `PrometheusWrapper::write_str`: push each line into the
buffer and handle it, except that the final line is handled only when the
written chunk ended with a newline. -/
def writeLines (endsNl : Bool) :
    List (List Char) → PrometheusWrapper → Except Unit PrometheusWrapper
  | [], w => Except.ok w
  | [l], w =>
    let w := { w with last_line := w.last_line ++ l }
    if endsNl then handleLine w else Except.ok w
  | l :: ls, w => do
    writeLines endsNl ls (← handleLine { w with last_line := w.last_line ++ l })

/-- `PrometheusWrapper::write_str`. -/
def writeStr (s : List Char) (w : PrometheusWrapper) : Except Unit PrometheusWrapper :=
  writeLines (s.getLast? = some '\n') (rustLines s) w

/-- `PrometheusWrapper::flush`: handle a non-empty buffered final line. -/
def flushWrapper (w : PrometheusWrapper) : Except Unit PrometheusWrapper :=
  if w.last_line = [] then Except.ok w else handleLine w

/-- A fresh `PrometheusWrapper::new` with flags already applied. -/
def PrometheusWrapper.new (removeEof translateInfo : Bool) : PrometheusWrapper :=
  ⟨removeEof, translateInfo, none, [], []⟩

/-- `Registry::encode`: for the two Prometheus-targeted formats, stream the
canonical OpenMetrics text (`input`, the output of `text::encode`) through a
`PrometheusWrapper` and flush it; `remove_eof_terminator` and
`translate_info_metrics_type` are enabled only for `Format::Prometheus`.  The
strict format passes the text through unchanged.  Results are returned as the
list of output lines. -/
def encodeFormat (format : Format) (input : List Char) :
    Except Unit (List (List Char)) :=
  match format with
  | Format.openMetrics => Except.ok (rustLines input)
  | _ => do
    let w := PrometheusWrapper.new (format = Format.prometheus) (format = Format.prometheus)
    let w ← writeStr input w
    let w ← flushWrapper w
    Except.ok w.out

/-- Character-level view of `write_str` used to reason about chunking: a
newline handles the buffered line, any other character is appended to it. -/
def charStep (w : PrometheusWrapper) (c : Char) : Except Unit PrometheusWrapper :=
  if c = '\n' then handleLine w else Except.ok { w with last_line := w.last_line ++ [c] }

/-- Processing of the raw `splitNl` segments: every segment but the last is
pushed and handled, the final (unterminated) segment is only pushed. -/
def processSegs : List (List Char) → PrometheusWrapper → Except Unit PrometheusWrapper
  | [], w => Except.ok w
  | [l], w => Except.ok { w with last_line := w.last_line ++ l }
  | l :: ls, w => do processSegs ls (← handleLine { w with last_line := w.last_line ++ l })

/-! Test fixtures for concrete witnesses. -/

def sampleMetric : MetricDescriptor := ⟨"m", "f", none, ""⟩

def sampleGroup1 : MetricGroupDescriptor :=
  ⟨"crate1", "0.1.0", "app::metrics", "G1", 10, [sampleMetric]⟩

def sampleGroup2 : MetricGroupDescriptor :=
  ⟨"crate2", "0.2.0", "lib::metrics", "G2", 20, [sampleMetric]⟩

def sampleRegistry : Registry :=
  ⟨⟨[sampleGroup1], [(("m"), ⟨sampleGroup1, sampleMetric⟩)]⟩, [("m")]⟩

/-! ## Theorems -/

/-! ### C9: exporter content types -/

/-- C9 counterexample: the claim groups the pull-compatible format with the
legacy format, but `MetricsExporterInner::render` serves
`OpenMetricsForPrometheus` with the OpenMetrics content type, not with the
Prometheus one. -/
theorem c9_counterexample :
    renderContentType Format.openMetricsForPrometheus ≠
        renderContentType Format.prometheus ∧
      renderContentType Format.openMetricsForPrometheus =
        renderContentType Format.openMetrics := by
  refine ⟨?_, rfl⟩
  decide

/-- C9 (amended): the content type distinguishes the legacy `Prometheus` format
from the other two; `OpenMetrics` and `OpenMetricsForPrometheus` are both served
with the OpenMetrics content type, and `Prometheus` with the distinct
Prometheus content type. -/
theorem c9_content_types :
    renderContentType Format.openMetrics = OPEN_METRICS_CONTENT_TYPE ∧
      renderContentType Format.openMetricsForPrometheus = OPEN_METRICS_CONTENT_TYPE ∧
      renderContentType Format.prometheus = PROMETHEUS_CONTENT_TYPE ∧
      OPEN_METRICS_CONTENT_TYPE ≠ PROMETHEUS_CONTENT_TYPE := by
  refine ⟨rfl, rfl, rfl, ?_⟩
  decide

/-! ### C10: gauge guards -/

/-- C10: `Gauge::inc_guard(v)` increases the gauge by `v` (exactly, absent
`i64` overflow) and dropping the returned guard decreases it by the same `v`,
restoring the pre-`inc_guard` value whenever that value was a representable
`i64` (the cell always holds a representable value). -/
theorem c10_gauge_guard_roundtrip (g v : ℤ) (hlo : -(2 ^ 63) ≤ g) (hhi : g < 2 ^ 63) :
    gaugeGuardDrop (gaugeIncGuard g v).1 (gaugeIncGuard g v).2 = g ∧
      (-(2 ^ 63) ≤ g + v → g + v < 2 ^ 63 → (gaugeIncGuard g v).2 = g + v) := by
  unfold gaugeGuardDrop gaugeIncGuard gaugeIncBy gaugeDecBy wrapI64
  constructor
  · simp only
    omega
  · intro h1 h2
    simp only
    omega

/-- C10 witness at `g = 5`, `v = 7`. -/
theorem c10_gauge_guard_roundtrip_witness :
    (-(2 ^ 63) ≤ (5 : ℤ)) ∧ ((5 : ℤ) < 2 ^ 63) ∧
      (gaugeGuardDrop (gaugeIncGuard 5 7).1 (gaugeIncGuard 5 7).2 = 5 ∧
        (-(2 ^ 63) ≤ (5 : ℤ) + 7 → (5 : ℤ) + 7 < 2 ^ 63 → (gaugeIncGuard 5 7).2 = 5 + 7)) :=
  ⟨by decide, by decide, c10_gauge_guard_roundtrip 5 7 (by decide) (by decide)⟩

/-! ### C8: mirroring and bias -/

theorem mirror_filterMap_pos (l : List ℚ) :
    l.filterMap (fun v => if 0 < v then some (-v) else none) =
      (l.filter (fun v => 0 < v)).map (fun v => -v) := by
  induction l with
  | nil => rfl
  | cons a l ih =>
    by_cases ha : 0 < a <;> simp [List.filter_cons, ha, ih]

theorem sorted_nonneg_head (base : List ℚ) (hnn : 0 ≤ base.headD 0)
    (hpw : base.Pairwise (· < ·)) : ∀ b ∈ base, 0 ≤ b := by
  match base with
  | [] => intro b hb; cases hb
  | h :: t =>
    intro b hb
    rcases List.mem_cons.mp hb with rfl | hbt
    · exact hnn
    · have := (List.pairwise_cons.mp hpw).1 b hbt
      have h0 : (0 : ℚ) ≤ h := hnn
      linarith

/-- C8: mirroring prepends the negations of the strictly positive boundaries,
taken in descending order (the reverse of the increasing base), before the
original sequence — in particular the mirrored sequence stays strictly
increasing; the bias is added to every boundary after mirroring; and the
documented examples hold. -/
theorem c8_mirror_and_bias (base : List ℚ) (hnn : 0 ≤ base.headD 0) :
    bucketsIter base true 0 =
        ((base.filter (fun v => 0 < v)).map (fun v => -v)).reverse ++ base ∧
      (base.Pairwise (· < ·) → (bucketsIter base true 0).Pairwise (· < ·)) ∧
      (∀ (mirrored : Bool) (bias : ℚ), bucketsIter base mirrored bias =
        (bucketsIter base mirrored 0).map (fun v => v + bias)) ∧
      bucketsIter [1, 2, 4, 8] true 0 = [-8, -4, -2, -1, 1, 2, 4, 8] ∧
      bucketsIter [1, 2, 4, 8] true 10 = [2, 6, 8, 9, 11, 12, 14, 18] := by
  have h1 : bucketsIter base true 0 =
      ((base.filter (fun v => 0 < v)).map (fun v => -v)).reverse ++ base := by
    simp [bucketsIter, mirror_filterMap_pos]
  refine ⟨h1, ?_, ?_, by norm_num [bucketsIter, List.filterMap_cons],
    by norm_num [bucketsIter, List.filterMap_cons]⟩
  · intro hpw
    rw [h1, List.pairwise_append]
    refine ⟨?_, hpw, ?_⟩
    · rw [List.pairwise_reverse, List.pairwise_map]
      exact (hpw.filter (fun v => 0 < v)).imp (fun h => neg_lt_neg h)
    · intro a ha b hb
      rw [List.mem_reverse, List.mem_map] at ha
      obtain ⟨x, hxmem, rfl⟩ := ha
      have hx : 0 < x := by
        have := List.of_mem_filter hxmem
        simpa using this
      have hb0 : 0 ≤ b := sorted_nonneg_head base hnn hpw b hb
      linarith
  · intro mirrored bias
    simp [bucketsIter, List.map_map, Function.comp]

/-- C8 witness at base `[1, 2, 4, 8]`. -/
theorem c8_mirror_and_bias_witness :
    (0 ≤ ([1, 2, 4, 8] : List ℚ).headD 0) ∧
      (bucketsIter [1, 2, 4, 8] true 0 =
          ((([1, 2, 4, 8] : List ℚ).filter (fun v => 0 < v)).map (fun v => -v)).reverse ++
            [1, 2, 4, 8] ∧
        (([1, 2, 4, 8] : List ℚ).Pairwise (· < ·) →
          (bucketsIter [1, 2, 4, 8] true 0).Pairwise (· < ·)) ∧
        (∀ (mirrored : Bool) (bias : ℚ), bucketsIter [1, 2, 4, 8] mirrored bias =
          (bucketsIter [1, 2, 4, 8] mirrored 0).map (fun v => v + bias)) ∧
        bucketsIter [1, 2, 4, 8] true 0 = [-8, -4, -2, -1, 1, 2, 4, 8] ∧
        bucketsIter [1, 2, 4, 8] true 10 = [2, 6, 8, 9, 11, 12, 14, 18]) :=
  ⟨by norm_num, c8_mirror_and_bias [1, 2, 4, 8] (by norm_num)⟩

/-! ### C1: Family storage -/

theorem assocFind_append_left {S : Type} [DecidableEq S] (labels : S)
    (es more : List (S × ℕ)) (id : ℕ) (h : assocFind labels es = some id) :
    assocFind labels (es ++ more) = some id := by
  induction es with
  | nil => simp [assocFind] at h
  | cons e es ih =>
    by_cases he : e.1 = labels
    · simpa [assocFind, he] using h
    · rw [List.cons_append, assocFind, if_neg he]
      rw [assocFind, if_neg he] at h
      exact ih h

theorem assocFind_eq_none_iff {S : Type} [DecidableEq S] (labels : S)
    (es : List (S × ℕ)) :
    assocFind labels es = none ↔ labels ∉ es.map Prod.fst := by
  induction es with
  | nil => simp [assocFind]
  | cons e es ih =>
    by_cases he : e.1 = labels
    · simp [assocFind, he]
    · rw [assocFind, if_neg he, ih]
      simp only [List.map_cons, List.mem_cons]
      constructor
      · intro h hor
        rcases hor with h1 | h2
        · exact he h1.symm
        · exact h h2
      · intro h h2
        exact h (Or.inr h2)

theorem assocFind_append_self {S : Type} [DecidableEq S] (labels : S)
    (es : List (S × ℕ)) (n : ℕ) (h : assocFind labels es = none) :
    assocFind labels (es ++ [(labels, n)]) = some n := by
  induction es with
  | nil => simp [assocFind]
  | cons e es ih =>
    by_cases he : e.1 = labels
    · simp [assocFind, he] at h
    · rw [List.cons_append, assocFind, if_neg he]
      rw [assocFind, if_neg he] at h
      exact ih h

/-- C1: `get_or_create` is idempotent (a second access with equal labels returns
the same instance without changing the family); the created entry is found by
`get`/`contains` immediately afterwards; at most one instance is materialized
per label combination (one access adds at most one entry and keeps label keys
distinct); and a materialized entry is never removed or replaced by any later
sequence of accesses. -/
theorem c1_family_get_or_create (S : Type) [DecidableEq S] (st : FamilyState S)
    (labels : S) (ops : List S) (hnodup : (st.entries.map Prod.fst).Nodup) :
    getOrCreate (getOrCreate st labels).2 labels =
        ((getOrCreate st labels).1, (getOrCreate st labels).2) ∧
      familyGet (getOrCreate st labels).2 labels = some (getOrCreate st labels).1 ∧
      familyContains (getOrCreate st labels).2 labels = true ∧
      (getOrCreate st labels).2.entries.length ≤ st.entries.length + 1 ∧
      ((getOrCreate st labels).2.entries.map Prod.fst).Nodup ∧
      (∀ id, familyGet st labels = some id →
        familyGet (familyRun st ops) labels = some id) := by
  have hget : familyGet (getOrCreate st labels).2 labels =
      some (getOrCreate st labels).1 := by
    unfold getOrCreate familyGet
    cases hfind : assocFind labels st.entries with
    | some id => simp [hfind]
    | none => simp [hfind, assocFind_append_self labels st.entries st.nextId hfind]
  refine ⟨?_, hget, ?_, ?_, ?_, ?_⟩
  · rw [getOrCreate]
    unfold familyGet at hget
    rw [hget]
  · unfold familyContains
    unfold familyGet at hget
    rw [hget]
    rfl
  · unfold getOrCreate
    cases hfind : assocFind labels st.entries <;> simp [hfind]
  · unfold getOrCreate
    cases hfind : assocFind labels st.entries with
    | some id => simpa [hfind] using hnodup
    | none =>
      simp only [hfind]
      rw [List.map_append, List.nodup_append]
      refine ⟨hnodup, by simp, ?_⟩
      intro a ha hb
      simp only [List.map_cons, List.map_nil, List.mem_singleton] at hb
      rw [hb] at ha
      exact ((assocFind_eq_none_iff labels st.entries).mp hfind) ha
  · clear hget hnodup
    induction ops generalizing st with
    | nil => intro id h; exact h
    | cons op ops ih =>
      intro id h
      rw [familyRun]
      refine ih (getOrCreate st op).2 id ?_
      unfold familyGet at h ⊢
      unfold getOrCreate
      cases hfind : assocFind op st.entries with
      | some i => exact h
      | none => exact assocFind_append_left labels st.entries _ id h

theorem c1_family_get_or_create_witness :
    ((((⟨[], 0⟩ : FamilyState ℕ).entries.map Prod.fst).Nodup) ∧
      (getOrCreate (getOrCreate (⟨[], 0⟩ : FamilyState ℕ) 5).2 5 =
          ((getOrCreate (⟨[], 0⟩ : FamilyState ℕ) 5).1,
            (getOrCreate (⟨[], 0⟩ : FamilyState ℕ) 5).2) ∧
        familyGet (getOrCreate (⟨[], 0⟩ : FamilyState ℕ) 5).2 5 =
          some (getOrCreate (⟨[], 0⟩ : FamilyState ℕ) 5).1 ∧
        familyContains (getOrCreate (⟨[], 0⟩ : FamilyState ℕ) 5).2 5 = true ∧
        (getOrCreate (⟨[], 0⟩ : FamilyState ℕ) 5).2.entries.length ≤
          (⟨[], 0⟩ : FamilyState ℕ).entries.length + 1 ∧
        ((getOrCreate (⟨[], 0⟩ : FamilyState ℕ) 5).2.entries.map Prod.fst).Nodup ∧
        (∀ id, familyGet (⟨[], 0⟩ : FamilyState ℕ) 5 = some id →
          familyGet (familyRun (⟨[], 0⟩ : FamilyState ℕ) [7, 5, 9]) 5 = some id))) :=
  ⟨by decide, c1_family_get_or_create ℕ ⟨[], 0⟩ 5 [7, 5, 9] (by decide)⟩

/-! ### C2: duplicate metric names -/

theorem descFind_append_left (n : String) (m l : List (String × FullMetricDescriptor))
    (d : FullMetricDescriptor) (h : descFind n m = some d) :
    descFind n (m ++ l) = some d := by
  induction m with
  | nil => simp [descFind] at h
  | cons e m ih =>
    by_cases he : e.1 = n
    · simpa [descFind, he] using h
    · rw [List.cons_append, descFind, if_neg he]
      rw [descFind, if_neg he] at h
      exact ih h

theorem descFind_mem (n : String) (m : List (String × FullMetricDescriptor))
    (d : FullMetricDescriptor) (h : descFind n m = some d) : (n, d) ∈ m := by
  induction m with
  | nil => simp [descFind] at h
  | cons e m ih =>
    obtain ⟨e1, e2⟩ := e
    by_cases he : e1 = n
    · rw [descFind, if_pos he] at h
      rw [Option.some_inj] at h
      subst he
      subst h
      exact List.mem_cons_self _ _
    · rw [descFind, if_neg he] at h
      exact List.mem_cons_of_mem _ (ih h)

theorem pushFields_clash (group : MetricGroupDescriptor) :
    ∀ (fields : List MetricDescriptor) (m : List (String × FullMetricDescriptor)),
      (∃ f ∈ fields, descFind f.full_name m ≠ none) →
      ∃ e : DuplicateMetricError, pushFields group fields m = Except.error e ∧
        e.descriptor.group = group ∧ e.descriptor.metric ∈ fields ∧
        e.metric_name = e.descriptor.metric.full_name ∧
        ((e.metric_name, e.prev_descriptor) ∈ m ∨
          (e.prev_descriptor.group = group ∧ e.prev_descriptor.metric ∈ fields ∧
            e.prev_descriptor.metric.full_name = e.metric_name)) := by
  intro fields
  induction fields with
  | nil =>
    intro m h
    obtain ⟨f, hf, _⟩ := h
    cases hf
  | cons f rest ih =>
    intro m h
    cases hfind : descFind f.full_name m with
    | some prev =>
      refine ⟨⟨f.full_name, ⟨group, f⟩, prev⟩, ?_, rfl, List.mem_cons_self _ _, rfl, ?_⟩
      · simp [pushFields, hfind]
      · exact Or.inl (descFind_mem _ _ _ hfind)
    | none =>
      obtain ⟨f2, hf2, hclash⟩ := h
      rcases List.mem_cons.mp hf2 with rfl | hf2rest
      · exact absurd hfind hclash
      · have hclash2 : descFind f2.full_name
            (m ++ [(f.full_name, ⟨group, f⟩)]) ≠ none := by
          cases hfind2 : descFind f2.full_name m with
          | none => exact absurd hfind2 hclash
          | some d =>
            rw [descFind_append_left _ _ _ _ hfind2]
            exact Option.noConfusion
        obtain ⟨e, herr, hgrp, hmem, hname, hprev⟩ :=
          ih (m ++ [(f.full_name, ⟨group, f⟩)]) ⟨f2, hf2rest, hclash2⟩
        refine ⟨e, ?_, hgrp, List.mem_cons_of_mem _ hmem, hname, ?_⟩
        · simpa [pushFields, hfind] using herr
        · rcases hprev with hin | hsame
          · rcases List.mem_append.mp hin with hin | hin
            · exact Or.inl hin
            · rw [List.mem_singleton] at hin
              rw [Prod.mk.injEq] at hin
              rw [hin.2]
              exact Or.inr ⟨rfl, List.mem_cons_self _ _, hin.1.symm⟩
          · exact Or.inr ⟨hsame.1, List.mem_cons_of_mem _ hsame.2.1, hsame.2.2⟩

theorem pushFields_preserves (group : MetricGroupDescriptor) :
    ∀ (fields : List MetricDescriptor) (m m2 : List (String × FullMetricDescriptor)),
      pushFields group fields m = Except.ok m2 →
      ∀ n d, descFind n m = some d → descFind n m2 = some d := by
  intro fields
  induction fields with
  | nil =>
    intro m m2 h n d hfind
    rw [pushFields] at h
    obtain rfl := Except.ok.inj h
    exact hfind
  | cons f rest ih =>
    intro m m2 h n d hfind
    rw [pushFields] at h
    cases hf : descFind f.full_name m with
    | some prev => rw [hf] at h; cases h
    | none =>
      rw [hf] at h
      exact ih _ _ h n d (descFind_append_left _ _ _ _ hfind)

/-- C2: registering a group containing a metric whose resolved full name (name
with unit suffix) is already present in the registry descriptor index faults
immediately inside `RegisteredDescriptors::push` — before `visit_metrics` feeds
anything to the encodable collection — with a message reporting both the new and
the previous definition sites, and no registry with an overwritten entry is ever
produced; on the success path every pre-existing entry is preserved unchanged. -/
theorem c2_duplicate_name_is_fatal (reg : Registry) (group : MetricGroupDescriptor) :
    ((∃ f ∈ group.metrics,
        descFind f.full_name reg.descriptors.metrics_by_name ≠ none) →
      ∃ e : DuplicateMetricError,
        reg.register_metrics group = Except.error e ∧
        (∀ reg2 : Registry, reg.register_metrics group ≠ Except.ok reg2) ∧
        e.descriptor.group = group ∧ e.descriptor.metric ∈ group.metrics ∧
        e.metric_name = e.descriptor.metric.full_name ∧
        ((e.metric_name, e.prev_descriptor) ∈ reg.descriptors.metrics_by_name ∨
          (e.prev_descriptor.group = group ∧ e.prev_descriptor.metric ∈ group.metrics ∧
            e.prev_descriptor.metric.full_name = e.metric_name)) ∧
        e.panicMessage =
          "Metric `" ++ e.metric_name ++ "` is redefined. New definition is at " ++
            e.descriptor.format_for_panic ++ ", previous definition was at " ++
            e.prev_descriptor.format_for_panic) ∧
    (∀ (reg2 : Registry) (n : String) (d : FullMetricDescriptor),
      reg.register_metrics group = Except.ok reg2 →
      descFind n reg.descriptors.metrics_by_name = some d →
      descFind n reg2.descriptors.metrics_by_name = some d) := by
  constructor
  · intro hclash
    obtain ⟨e, herr, hgrp, hmem, hname, hprev⟩ :=
      pushFields_clash group group.metrics reg.descriptors.metrics_by_name hclash
    have hpush : reg.descriptors.push group = Except.error e := by
      rw [RegisteredDescriptors.push, herr]
      rfl
    have hreg : reg.register_metrics group = Except.error e := by
      rw [Registry.register_metrics, hpush]
      rfl
    refine ⟨e, hreg, ?_, hgrp, hmem, hname, hprev, rfl⟩
    intro reg2 hok
    rw [hreg] at hok
    cases hok
  · intro reg2 n d hok hfind
    rw [Registry.register_metrics] at hok
    cases hpush : reg.descriptors.push group with
    | error e => rw [hpush] at hok; cases hok
    | ok d2 =>
      rw [hpush] at hok
      obtain rfl := Except.ok.inj hok
      rw [RegisteredDescriptors.push] at hpush
      cases hfields : pushFields group group.metrics reg.descriptors.metrics_by_name with
      | error e => rw [hfields] at hpush; cases hpush
      | ok m2 =>
        rw [hfields] at hpush
        obtain rfl := Except.ok.inj hpush
        exact pushFields_preserves group group.metrics _ _ hfields n d hfind

/-- C2 witness: a registry already holding metric `m` of `sampleGroup1`, and a
second group resolving to the same full name. -/
theorem c2_duplicate_name_is_fatal_witness :
    (∃ f ∈ sampleGroup2.metrics,
        descFind f.full_name sampleRegistry.descriptors.metrics_by_name ≠ none) ∧
      (∃ e : DuplicateMetricError,
        sampleRegistry.register_metrics sampleGroup2 = Except.error e ∧
        (∀ reg2 : Registry,
          sampleRegistry.register_metrics sampleGroup2 ≠ Except.ok reg2) ∧
        e.descriptor.group = sampleGroup2 ∧
        e.descriptor.metric ∈ sampleGroup2.metrics ∧
        e.metric_name = e.descriptor.metric.full_name ∧
        ((e.metric_name, e.prev_descriptor) ∈
            sampleRegistry.descriptors.metrics_by_name ∨
          (e.prev_descriptor.group = sampleGroup2 ∧
            e.prev_descriptor.metric ∈ sampleGroup2.metrics ∧
            e.prev_descriptor.metric.full_name = e.metric_name)) ∧
        e.panicMessage =
          "Metric `" ++ e.metric_name ++ "` is redefined. New definition is at " ++
            e.descriptor.format_for_panic ++ ", previous definition was at " ++
            e.prev_descriptor.format_for_panic) :=
  ⟨by decide, (c2_duplicate_name_is_fatal sampleRegistry sampleGroup2).1 (by decide)⟩

/-! ### C3: scaled buckets -/

theorem octaveStart_eq (b : ScaledBuckets) (k : ℕ) :
    b.octaveStart k = b.start * b.greatestFactor ^ k := by
  induction k with
  | zero => simp [ScaledBuckets.octaveStart]
  | succ k ih => rw [ScaledBuckets.octaveStart, ih, pow_succ, mul_assoc]

theorem greatestFactor_mem (b : ScaledBuckets) (h : b.factors ≠ []) :
    b.greatestFactor ∈ b.factors := by
  rw [ScaledBuckets.greatestFactor, List.getLastD_eq_getLast?,
    List.getLast?_eq_getLast _ h, Option.getD_some]
  exact List.getLast_mem h

theorem takeWhile_eq_filter_of_pairwise {α : Type} (p : α → Bool) (l : List α)
    (h : l.Pairwise (fun a b => p b = true → p a = true)) :
    l.takeWhile p = l.filter p := by
  induction l with
  | nil => rfl
  | cons a t ih =>
    obtain ⟨ha, ht⟩ := List.pairwise_cons.mp h
    by_cases hpa : p a = true
    · rw [List.takeWhile_cons, List.filter_cons, if_pos hpa, ih ht]
      simp [hpa]
    · rw [List.takeWhile_cons, List.filter_cons, if_neg hpa]
      have : t.filter p = [] := by
        rw [List.filter_eq_nil_iff]
        intro b hb hpb
        exact hpa (ha b hb hpb)
      simp [hpa, this]

/-- C3: for a valid scaled bucket specification the generated stream follows the
documented rule `start * F^k * (1 :: factors[0..n-2])[i]` (`F` the greatest
factor), it is strictly increasing, the realized buckets are exactly the stream
values not exceeding `end` (truncation at the first value exceeding `end`), and
`scaled(1..=100, [2, 5, 10])` yields `[1, 2, 5, 10, 20, 50, 100]`. -/
theorem c3_scaled_buckets (b : ScaledBuckets) (hv : b.Valid) :
    (∀ j, b.stream j =
        b.start * b.greatestFactor ^ (j / b.factors.length) *
          b.harmonics.getD (j % b.factors.length) 1) ∧
      StrictMono b.stream ∧
      (∀ fuel, b.buckets fuel =
        ((List.range fuel).map b.stream).filter (fun v => v ≤ b.stop)) ∧
      ScaledBuckets.buckets ⟨1, 100, [2, 5, 10]⟩ 9 = [1, 2, 5, 10, 20, 50, 100] := by
  obtain ⟨hstart, hrange, hne, hgt1, hchain⟩ := hv
  have hn : 0 < b.factors.length := List.length_pos.mpr hne
  have hF : 1 < b.greatestFactor := hgt1 _ (greatestFactor_mem b hne)
  have hpw : b.factors.Pairwise (· < ·) := List.chain'_iff_pairwise.mp hchain
  have hoct : ∀ k, 0 < b.octaveStart k := by
    intro k
    induction k with
    | zero => exact hstart
    | succ k ih =>
      rw [ScaledBuckets.octaveStart]
      exact mul_pos ih (by linarith)
  have hsmlen : b.smallerFactors.length = b.factors.length - 1 := by
    simp [ScaledBuckets.smallerFactors]
  have hsm : ∀ i, i < b.factors.length - 1 →
      b.smallerFactors.getD i 1 = b.factors.getD i 1 := by
    intro i hi
    have h1 : i < b.smallerFactors.length := by omega
    have h2 : i < b.factors.length := by omega
    rw [List.getD_eq_getElem _ _ h1, List.getD_eq_getElem _ _ h2]
    simp [ScaledBuckets.smallerFactors]
  have hgetlt : ∀ i j, i < j → (hj : j < b.factors.length) →
      b.factors.getD i 1 < b.factors.getD j 1 := by
    intro i j hij hj
    have hi : i < b.factors.length := lt_trans hij hj
    rw [List.getD_eq_getElem _ _ hi, List.getD_eq_getElem _ _ hj]
    exact List.pairwise_iff_getElem.mp hpw i j hi hj hij
  have hget1 : ∀ i, (hi : i < b.factors.length) → 1 < b.factors.getD i 1 := by
    intro i hi
    rw [List.getD_eq_getElem _ _ hi]
    exact hgt1 _ (List.getElem_mem _)
  have hA : ∀ i, i + 1 < b.factors.length →
      b.harmonics.getD i 1 < b.harmonics.getD (i + 1) 1 := by
    intro i hi
    cases i with
    | zero =>
      have h0 : b.harmonics.getD 0 1 = 1 := rfl
      have h1 : b.harmonics.getD 1 1 = b.factors.getD 0 1 := by
        rw [ScaledBuckets.harmonics, List.getD_cons_succ]
        exact hsm 0 (by omega)
      rw [h0, h1]
      exact hget1 0 (by omega)
    | succ j =>
      have h0 : b.harmonics.getD (j + 1) 1 = b.factors.getD j 1 := by
        rw [ScaledBuckets.harmonics, List.getD_cons_succ]
        exact hsm j (by omega)
      have h1 : b.harmonics.getD (j + 2) 1 = b.factors.getD (j + 1) 1 := by
        rw [ScaledBuckets.harmonics, List.getD_cons_succ]
        exact hsm (j + 1) (by omega)
      rw [h0, h1]
      exact hgetlt j (j + 1) (by omega) (by omega)
  have hlast : b.greatestFactor = b.factors.getD (b.factors.length - 1) 1 := by
    rw [ScaledBuckets.greatestFactor, List.getLastD_eq_getLast?,
      List.getLast?_eq_getLast _ hne, Option.getD_some,
      List.getD_eq_getElem _ _ (by omega), List.getLast_eq_getElem]
  have hB : b.harmonics.getD (b.factors.length - 1) 1 < b.greatestFactor := by
    rcases Nat.lt_or_ge 1 b.factors.length with h2 | h1
    · have hidx : b.factors.length - 1 = (b.factors.length - 2) + 1 := by omega
      rw [hidx, ScaledBuckets.harmonics, List.getD_cons_succ,
        hsm (b.factors.length - 2) (by omega), hlast]
      exact hgetlt _ _ (by omega) (by omega)
    · have hone : b.factors.length = 1 := by omega
      have h0 : b.harmonics.getD (b.factors.length - 1) 1 = 1 := by
        rw [hone]
        rfl
      rw [h0]
      exact hF
  have hmono : StrictMono b.stream := by
    apply strictMono_nat_of_lt_succ
    intro j
    have hmod : j % b.factors.length < b.factors.length := Nat.mod_lt _ hn
    have hj := Nat.div_add_mod j b.factors.length
    rcases Nat.lt_or_ge (j % b.factors.length + 1) b.factors.length with hlt | hge
    · have h1 : j + 1 = b.factors.length * (j / b.factors.length) +
          (j % b.factors.length + 1) := by
        conv_rhs => rw [← Nat.add_assoc, hj]
      have hdiv : (j + 1) / b.factors.length = j / b.factors.length := by
        rw [h1, Nat.mul_add_div hn, Nat.div_eq_of_lt hlt, Nat.add_zero]
      have hmod2 : (j + 1) % b.factors.length = j % b.factors.length + 1 := by
        rw [h1, Nat.mul_add_mod, Nat.mod_eq_of_lt hlt]
      rw [ScaledBuckets.stream, ScaledBuckets.stream, hdiv, hmod2]
      exact mul_lt_mul_of_pos_left (hA _ hlt) (hoct _)
    · have heq : j % b.factors.length + 1 = b.factors.length := by omega
      have h1 : j + 1 = b.factors.length * (j / b.factors.length + 1) := by
        calc j + 1
            = (b.factors.length * (j / b.factors.length) + j % b.factors.length) + 1 := by
              rw [hj]
          _ = b.factors.length * (j / b.factors.length) + (j % b.factors.length + 1) := by
              rw [Nat.add_assoc]
          _ = b.factors.length * (j / b.factors.length) + b.factors.length := by rw [heq]
          _ = b.factors.length * (j / b.factors.length + 1) := by rw [Nat.mul_succ]
      have hdiv : (j + 1) / b.factors.length = j / b.factors.length + 1 := by
        rw [h1, Nat.mul_div_cancel_left _ hn]
      have hmod2 : (j + 1) % b.factors.length = 0 := by
        rw [h1, Nat.mul_mod_right]
      have hmodj : j % b.factors.length = b.factors.length - 1 := by omega
      rw [ScaledBuckets.stream, ScaledBuckets.stream, hdiv, hmod2, hmodj]
      have hzero : b.harmonics.getD 0 1 = 1 := rfl
      rw [hzero, mul_one, ScaledBuckets.octaveStart]
      exact mul_lt_mul_of_pos_left hB (hoct _)
  refine ⟨?_, hmono, ?_, ?_⟩
  · intro j
    rw [ScaledBuckets.stream, octaveStart_eq]
  · intro fuel
    rw [ScaledBuckets.buckets]
    apply takeWhile_eq_filter_of_pairwise
    rw [List.pairwise_map]
    refine (List.pairwise_lt_range fuel).imp ?_
    intro i j hij hdec
    rw [decide_eq_true_iff] at hdec ⊢
    exact le_of_lt (lt_of_lt_of_le (hmono hij) hdec)
  · norm_num [ScaledBuckets.buckets, ScaledBuckets.stream, ScaledBuckets.octaveStart,
      ScaledBuckets.greatestFactor, ScaledBuckets.harmonics, ScaledBuckets.smallerFactors,
      List.range_succ]

/-- C3 witness at `Buckets::scaled(1.0..=100.0, [2.0, 5.0, 10.0])`. -/
theorem c3_scaled_buckets_witness :
    (ScaledBuckets.Valid ⟨1, 100, [2, 5, 10]⟩) ∧
      ((∀ j, ScaledBuckets.stream ⟨1, 100, [2, 5, 10]⟩ j =
          (1 : ℚ) * (ScaledBuckets.greatestFactor ⟨1, 100, [2, 5, 10]⟩) ^
              (j / (ScaledBuckets.factors ⟨1, 100, [2, 5, 10]⟩).length) *
            (ScaledBuckets.harmonics ⟨1, 100, [2, 5, 10]⟩).getD
              (j % (ScaledBuckets.factors ⟨1, 100, [2, 5, 10]⟩).length) 1) ∧
        StrictMono (ScaledBuckets.stream ⟨1, 100, [2, 5, 10]⟩) ∧
        (∀ fuel, ScaledBuckets.buckets ⟨1, 100, [2, 5, 10]⟩ fuel =
          ((List.range fuel).map (ScaledBuckets.stream ⟨1, 100, [2, 5, 10]⟩)).filter
            (fun v => v ≤ ScaledBuckets.stop ⟨1, 100, [2, 5, 10]⟩)) ∧
        ScaledBuckets.buckets ⟨1, 100, [2, 5, 10]⟩ 9 = [1, 2, 5, 10, 20, 50, 100]) := by
  have hv : ScaledBuckets.Valid ⟨1, 100, [2, 5, 10]⟩ := by
    refine ⟨by norm_num, by norm_num, by simp, ?_, ?_⟩
    · intro f hf
      fin_cases hf <;> norm_num
    · refine List.chain'_cons.mpr ⟨by norm_num, ?_⟩
      refine List.chain'_cons.mpr ⟨by norm_num, ?_⟩
      exact List.chain'_singleton _
  exact ⟨hv, c3_scaled_buckets ⟨1, 100, [2, 5, 10]⟩ hv⟩

theorem stripPre_some (pre s t : List Char) (h : stripPre pre s = some t) :
    s = pre ++ t := by
  rw [stripPre] at h
  by_cases hp : pre.isPrefixOf s
  · rw [if_pos hp, Option.some_inj] at h
    obtain ⟨u, hu⟩ := (List.isPrefixOf_iff_prefix.mp hp)
    subst hu
    rw [List.drop_left] at h
    rw [h]
  · rw [if_neg hp] at h
    cases h

theorem stripSuf_some (suf s t : List Char) (h : stripSuf suf s = some t) :
    s = t ++ suf := by
  rw [stripSuf] at h
  cases hp : stripPre suf.reverse s.reverse with
  | none => rw [hp] at h; cases h
  | some u =>
    rw [hp, Option.map_some', Option.some_inj] at h
    have hs := stripPre_some _ _ _ hp
    have h2 : s = (suf.reverse ++ u).reverse := by rw [← hs, List.reverse_reverse]
    rw [h2, List.reverse_append, List.reverse_reverse, h]

theorem findSplit_some (p : Char → Bool) (l a b : List Char)
    (h : findSplit p l = some (a, b)) :
    l = a ++ b ∧ ∃ c bs, b = c :: bs ∧ p c = true := by
  induction l generalizing a b with
  | nil => cases h
  | cons c rest ih =>
    rw [findSplit] at h
    by_cases hc : p c
    · rw [if_pos hc, Option.some_inj] at h
      have ha := congrArg Prod.fst h
      have hb := congrArg Prod.snd h
      simp only at ha hb
      subst ha
      subst hb
      exact ⟨rfl, c, rest, rfl, hc⟩
    · rw [if_neg hc] at h
      cases hfs : findSplit p rest with
      | none => rw [hfs] at h; cases h
      | some q =>
        obtain ⟨a2, b2⟩ := q
        rw [hfs, Option.map_some', Option.some_inj] at h
        have ha := congrArg Prod.fst h
        have hb := congrArg Prod.snd h
        simp only at ha hb
        subst ha
        subst hb
        obtain ⟨h1, c2, bs, h2, h3⟩ := ih a2 b2 hfs
        exact ⟨by rw [List.cons_append, ← h1], c2, bs, h2, h3⟩

theorem valueLineTransform_shape (mdopt : Option MetricTypeDefinition)
    (name rest : List Char) :
    valueLineTransform mdopt name rest = none ∨
      ∃ nm, valueLineTransform mdopt name rest = some (nm ++ rest) ∧
        (name = nm ++ ("_total").toList ∨ name = nm ++ ("_info").toList) := by
  cases mdopt with
  | none => exact Or.inl rfl
  | some md =>
    obtain ⟨nm0, ty0⟩ := md
    cases ty0 with
    | counter =>
      cases hss : stripSuf (("_total").toList) name with
      | none => exact Or.inl (by simp only [valueLineTransform, hss])
      | some tn =>
        by_cases he : tn = nm0
        · subst he
          refine Or.inr ⟨tn, ?_, Or.inl (stripSuf_some _ _ _ hss)⟩
          simp only [valueLineTransform, hss, if_pos rfl]
          rfl
        · exact Or.inl (by simp only [valueLineTransform, hss, if_neg he])
    | info =>
      cases hss : stripSuf (("_info").toList) name with
      | none => exact Or.inl (by simp only [valueLineTransform, hss])
      | some tn =>
        by_cases he : tn = nm0
        · subst he
          refine Or.inr ⟨tn, ?_, Or.inr (stripSuf_some _ _ _ hss)⟩
          simp only [valueLineTransform, hss, if_pos rfl]
          rfl
        · exact Or.inl (by simp only [valueLineTransform, hss, if_neg he])
    | gauge => exact Or.inl rfl
    | histogram => exact Or.inl rfl
    | unknown => exact Or.inl rfl

theorem eofLine_length : eofLine.length = 5 := rfl

theorem typeMarker_append_ne_eofLine (td : List Char) : typeMarker ++ td ≠ eofLine := by
  intro h
  have hl := congrArg List.length h
  rw [List.length_append, eofLine_length] at hl
  have h7 : typeMarker.length = 7 := rfl
  omega

/-- Exhaustive description of a successful `handle_line` step: the two dialect
flags survive, the line buffer is cleared, and either the EOF terminator was
skipped (only under `remove_eof_terminator`) or exactly one line was emitted,
which equals `# EOF` exactly when the buffered line was `# EOF`. -/
theorem handleLine_ok_shape (w w2 : PrometheusWrapper)
    (h : handleLine w = Except.ok w2) :
    w2.remove_eof_terminator = w.remove_eof_terminator ∧
      w2.translate_info_metrics_type = w.translate_info_metrics_type ∧
      w2.last_line = [] ∧
      ((w2.out = w.out ∧ w.last_line = eofLine ∧ w.remove_eof_terminator = true) ∨
        (∃ l, w2.out = w.out ++ [l] ∧ (l = eofLine ↔ w.last_line = eofLine) ∧
          ¬(w.last_line = eofLine ∧ w.remove_eof_terminator = true))) := by
  rw [handleLine] at h
  simp only at h
  split at h
  · next hskip =>
    obtain rfl := Except.ok.inj h
    exact ⟨rfl, rfl, rfl, Or.inl ⟨rfl, hskip⟩⟩
  · next hskip =>
    split at h
    · next td hstrip =>
      have hline : w.last_line = typeMarker ++ td := stripPre_some _ _ _ hstrip
      have hlinene : w.last_line ≠ eofLine := by
        rw [hline]
        exact typeMarker_append_ne_eofLine td
      split at h
      · cases h
      · next md hparse =>
        split at h
        · next htr =>
          obtain rfl := Except.ok.inj h
          refine ⟨rfl, rfl, rfl, Or.inr ⟨_, rfl, ?_, hskip⟩⟩
          rw [Option.getD_some]
          constructor
          · intro he
            rw [List.append_assoc] at he
            exact absurd he (typeMarker_append_ne_eofLine _)
          · intro he
            exact absurd he hlinene
        · next htr =>
          obtain rfl := Except.ok.inj h
          refine ⟨rfl, rfl, rfl, Or.inr ⟨_, rfl, ?_, hskip⟩⟩
          rw [Option.getD_none]
    · next hstrip =>
      split at h
      · next hhead =>
        obtain rfl := Except.ok.inj h
        exact ⟨rfl, rfl, rfl, Or.inr ⟨_, rfl, Iff.rfl, hskip⟩⟩
      · next hhead =>
        have hlinene : w.last_line ≠ eofLine := by
          intro he
          exact hhead (by rw [he]; rfl)
        split at h
        · cases h
        · next name rest hfs =>
          obtain rfl := Except.ok.inj h
          refine ⟨rfl, rfl, rfl, Or.inr ⟨_, rfl, ?_, hskip⟩⟩
          obtain ⟨hsplit, c0, bs, hbs, hpc⟩ := findSplit_some _ _ _ _ hfs
          rcases valueLineTransform_shape w.last_metric_definition name rest with
            hnone | ⟨nm, hsome, hname⟩
          · rw [hnone, Option.getD_none]
          · rw [hsome, Option.getD_some]
            refine ⟨?_, fun he => absurd he hlinene⟩
            intro he
            exfalso
            have hh : (nm ++ rest).head? = some '#' := by rw [he]; rfl
            cases hmd : nm with
            | nil =>
              rw [hmd, List.nil_append, hbs, List.head?_cons, Option.some_inj] at hh
              subst hh
              revert hpc
              decide
            | cons c1 cs =>
              apply hhead
              rw [hmd, List.cons_append, List.head?_cons] at hh
              rcases hname with hname | hname <;>
                · rw [hsplit, hname, hmd, List.cons_append, List.cons_append,
                    List.head?_cons]
                  exact hh


theorem except_bind_ok {α β : Type} (a : α) (f : α → Except Unit β) :
    (Except.ok a >>= f) = f a := rfl

theorem except_bind_error {α β : Type} (e : Unit) (f : α → Except Unit β) :
    ((Except.error e : Except Unit α) >>= f) = Except.error e := rfl

theorem pushLine_fields (w : PrometheusWrapper) (l : List Char) :
    ({ w with last_line := w.last_line ++ l } : PrometheusWrapper).remove_eof_terminator
        = w.remove_eof_terminator ∧
      ({ w with last_line := w.last_line ++ l } : PrometheusWrapper).out = w.out :=
  ⟨rfl, rfl⟩

theorem writeLines_no_eof (endsNl : Bool) (ls : List (List Char))
    (w w2 : PrometheusWrapper) (h : writeLines endsNl ls w = Except.ok w2)
    (hre : w.remove_eof_terminator = true) (hout : eofLine ∉ w.out) :
    eofLine ∉ w2.out ∧ w2.remove_eof_terminator = true := by
  induction ls generalizing w with
  | nil =>
    rw [writeLines] at h
    obtain rfl := Except.ok.inj h
    exact ⟨hout, hre⟩
  | cons l ls ih =>
    cases ls with
    | nil =>
      rw [writeLines] at h
      by_cases hnl : endsNl = true
      · rw [if_pos hnl] at h
        obtain ⟨hr, ht, hl, hcase⟩ := handleLine_ok_shape _ _ h
        rcases hcase with ⟨ho, _, _⟩ | ⟨e, ho, hiff, hne⟩
        · exact ⟨by rw [ho]; exact hout, by rw [hr]; exact hre⟩
        · refine ⟨?_, by rw [hr]; exact hre⟩
          rw [ho]
          intro hmem
          rcases List.mem_append.mp hmem with hm | hm
          · exact hout hm
          · rw [List.mem_singleton] at hm
            exact hne ⟨hiff.mp hm.symm, hre⟩
      · rw [if_neg hnl] at h
        obtain rfl := Except.ok.inj h
        exact ⟨hout, hre⟩
    | cons l2 ls2 =>
      rw [show writeLines endsNl (l :: l2 :: ls2) w =
        (handleLine { w with last_line := w.last_line ++ l } >>=
          writeLines endsNl (l2 :: ls2)) from rfl] at h
      cases hh : handleLine { w with last_line := w.last_line ++ l } with
      | error e => rw [hh, except_bind_error] at h; cases h
      | ok w1 =>
        rw [hh, except_bind_ok] at h
        obtain ⟨hr, ht, hl, hcase⟩ := handleLine_ok_shape _ _ hh
        have hre1 : w1.remove_eof_terminator = true := by rw [hr]; exact hre
        have hout1 : eofLine ∉ w1.out := by
          rcases hcase with ⟨ho, _, _⟩ | ⟨e, ho, hiff, hne⟩
          · rw [ho]; exact hout
          · rw [ho]
            intro hmem
            rcases List.mem_append.mp hmem with hm | hm
            · exact hout hm
            · rw [List.mem_singleton] at hm
              exact hne ⟨hiff.mp hm.symm, hre⟩
        exact ih w1 h hre1 hout1

theorem flush_no_eof (w w2 : PrometheusWrapper) (h : flushWrapper w = Except.ok w2)
    (hre : w.remove_eof_terminator = true) (hout : eofLine ∉ w.out) :
    eofLine ∉ w2.out := by
  rw [flushWrapper] at h
  by_cases hl : w.last_line = []
  · rw [if_pos hl] at h
    obtain rfl := Except.ok.inj h
    exact hout
  · rw [if_neg hl] at h
    obtain ⟨hr, ht, hlast, hcase⟩ := handleLine_ok_shape _ _ h
    rcases hcase with ⟨ho, _, _⟩ | ⟨e, ho, hiff, hne⟩
    · rw [ho]; exact hout
    · rw [ho]
      intro hmem
      rcases List.mem_append.mp hmem with hm | hm
      · exact hout hm
      · rw [List.mem_singleton] at hm
        exact hne ⟨hiff.mp hm.symm, hre⟩

theorem writeLines_emits (ls : List (List Char)) (w w2 : PrometheusWrapper)
    (h : writeLines true ls w = Except.ok w2)
    (hre : w.remove_eof_terminator = false) (hl : w.last_line = []) :
    ∃ es, w2.out = w.out ++ es ∧ w2.last_line = [] ∧
      w2.remove_eof_terminator = false ∧
      List.Forall₂ (fun e l => e = eofLine ↔ l = eofLine) es ls := by
  induction ls generalizing w with
  | nil =>
    rw [writeLines] at h
    obtain rfl := Except.ok.inj h
    exact ⟨[], by rw [List.append_nil], hl, hre, List.Forall₂.nil⟩
  | cons l ls ih =>
    have hpush : ({ w with last_line := w.last_line ++ l } :
        PrometheusWrapper).last_line = l := by
      simp [hl]
    cases ls with
    | nil =>
      rw [writeLines, if_pos rfl] at h
      obtain ⟨hr, ht, hlast, hcase⟩ := handleLine_ok_shape _ _ h
      rcases hcase with ⟨_, _, hcontra⟩ | ⟨e, ho, hiff, _⟩
      · rw [show ({ w with last_line := w.last_line ++ l } :
          PrometheusWrapper).remove_eof_terminator = w.remove_eof_terminator from rfl,
          hre] at hcontra
        cases hcontra
      · refine ⟨[e], by rw [ho], hlast, by rw [hr]; exact hre, ?_⟩
        refine List.Forall₂.cons ?_ List.Forall₂.nil
        rw [hpush] at hiff
        exact hiff
    | cons l2 ls2 =>
      rw [show writeLines true (l :: l2 :: ls2) w =
        (handleLine { w with last_line := w.last_line ++ l } >>=
          writeLines true (l2 :: ls2)) from rfl] at h
      cases hh : handleLine { w with last_line := w.last_line ++ l } with
      | error e => rw [hh, except_bind_error] at h; cases h
      | ok w1 =>
        rw [hh, except_bind_ok] at h
        obtain ⟨hr, ht, hlast, hcase⟩ := handleLine_ok_shape _ _ hh
        rcases hcase with ⟨_, _, hcontra⟩ | ⟨e, ho, hiff, _⟩
        · rw [show ({ w with last_line := w.last_line ++ l } :
            PrometheusWrapper).remove_eof_terminator = w.remove_eof_terminator from rfl,
            hre] at hcontra
          cases hcontra
        · obtain ⟨es, hout2, hl2, hre2, hfa⟩ :=
            ih w1 h (by rw [hr]; exact hre) hlast
          refine ⟨e :: es, ?_, hl2, hre2, ?_⟩
          · rw [hout2, ho]
            rw [List.append_assoc]
            rfl
          · refine List.Forall₂.cons ?_ hfa
            rw [hpush] at hiff
            exact hiff

theorem forall₂_count_eof (es ls : List (List Char))
    (h : List.Forall₂ (fun e l => e = eofLine ↔ l = eofLine) es ls) :
    es.count eofLine = ls.count eofLine := by
  induction h with
  | nil => rfl
  | cons hel htail ih =>
    rename_i a b es2 ls2
    rw [List.count_cons, List.count_cons, ih]
    congr 1
    by_cases ha : a = eofLine
    · rw [if_pos (beq_iff_eq.mpr ha), if_pos (beq_iff_eq.mpr (hel.mp ha))]
    · rw [if_neg (fun hb => ha (beq_iff_eq.mp hb)),
        if_neg (fun hb => ha (hel.mpr (beq_iff_eq.mp hb)))]

theorem forall₂_getLast? {R : List Char → List Char → Prop}
    (es ls : List (List Char)) (h : List.Forall₂ R es ls) (x : List Char)
    (hx : ls.getLast? = some x) : ∃ e, es.getLast? = some e ∧ R e x := by
  induction h with
  | nil => cases hx
  | cons hel htail ih =>
    rename_i e l es2 ls2
    cases htail with
    | nil =>
      rw [List.getLast?_singleton, Option.some_inj] at hx
      exact ⟨e, by rw [List.getLast?_singleton], hx ▸ hel⟩
    | cons hel2 htail2 =>
      rename_i e2 l2 es3 ls3
      rw [List.getLast?_cons_cons] at hx
      obtain ⟨e0, he0, hr⟩ := ih hx
      exact ⟨e0, by rw [List.getLast?_cons_cons]; exact he0, hr⟩


/-- C6: the strictly-legacy (`Prometheus`) translation never contains an
output line equal to `# EOF`, while the pull-compatible
(`OpenMetricsForPrometheus`) translation of a well-formed strict stream — one
whose final, newline-terminated line is the single `# EOF` terminator — ends
with exactly one `# EOF` line. -/
theorem c6_eof_terminator :
    (∀ (input : List Char) (out : List (List Char)),
      encodeFormat Format.prometheus input = Except.ok out → eofLine ∉ out) ∧
    (∀ (input : List Char) (out : List (List Char)),
      encodeFormat Format.openMetricsForPrometheus input = Except.ok out →
      input.getLast? = some '\n' →
      (rustLines input).getLast? = some eofLine →
      (rustLines input).count eofLine = 1 →
      out.getLast? = some eofLine ∧ out.count eofLine = 1) := by
  constructor
  · intro input out h
    rw [show encodeFormat Format.prometheus input =
      (writeStr input (PrometheusWrapper.new true true) >>= fun w =>
        flushWrapper w >>= fun w => Except.ok w.out) from rfl] at h
    cases hws : writeStr input (PrometheusWrapper.new true true) with
    | error e => rw [hws, except_bind_error] at h; cases h
    | ok w1 =>
      rw [hws, except_bind_ok] at h
      cases hfl : flushWrapper w1 with
      | error e => rw [hfl, except_bind_error] at h; cases h
      | ok w2 =>
        rw [hfl, except_bind_ok] at h
        obtain rfl := Except.ok.inj h
        rw [writeStr] at hws
        obtain ⟨hout1, hre1⟩ := writeLines_no_eof _ _ _ _ hws rfl (List.not_mem_nil _)
        exact flush_no_eof _ _ hfl hre1 hout1
  · intro input out h hnl hlast hcount
    rw [show encodeFormat Format.openMetricsForPrometheus input =
      (writeStr input (PrometheusWrapper.new false false) >>= fun w =>
        flushWrapper w >>= fun w => Except.ok w.out) from rfl] at h
    cases hws : writeStr input (PrometheusWrapper.new false false) with
    | error e => rw [hws, except_bind_error] at h; cases h
    | ok w1 =>
      rw [hws, except_bind_ok] at h
      rw [writeStr] at hws
      rw [show (decide (input.getLast? = some '\n')) = true from decide_eq_true hnl] at hws
      obtain ⟨es, hout1, hl1, hre1, hfa⟩ := writeLines_emits _ _ _ hws rfl rfl
      rw [flushWrapper, if_pos hl1, except_bind_ok] at h
      obtain rfl := Except.ok.inj h
      have hes : w1.out = es := by rw [hout1]; rfl
      rw [hes]
      obtain ⟨e0, he0, hiff⟩ := forall₂_getLast? _ _ hfa _ hlast
      constructor
      · rw [he0, Option.some_inj]
        exact hiff.mpr rfl
      · rw [forall₂_count_eof _ _ hfa]
        exact hcount

/-- C6 witness: a two-line legacy translation without `# EOF`, and a
pull-compatible translation ending in exactly one `# EOF`. -/
theorem c6_eof_terminator_witness :
    (eofLine ∉ [("a 1").toList]) ∧
      (([("# HELP x y").toList, ("a 1").toList, ("# EOF").toList].getLast? =
          some eofLine) ∧
        [("# HELP x y").toList, ("a 1").toList, ("# EOF").toList].count eofLine = 1) :=
  ⟨c6_eof_terminator.1 (("a 1\n# EOF\n").toList) [("a 1").toList] (by rfl),
    c6_eof_terminator.2 (("# HELP x y\na 1\n# EOF\n").toList)
      [("# HELP x y").toList, ("a 1").toList, ("# EOF").toList]
      (by rfl) (by rfl) (by rfl) (by rfl)⟩


theorem splitNl_ne_nil (s : List Char) : splitNl s ≠ [] := by
  cases s with
  | nil => exact fun h => List.noConfusion h
  | cons c rest =>
    rw [splitNl]
    by_cases hc : c = '\n'
    · rw [if_pos hc]
      exact fun h => List.noConfusion h
    · rw [if_neg hc]
      cases splitNl rest with
      | nil => exact fun h => List.noConfusion h
      | cons h t => exact fun h => List.noConfusion h

theorem processSegs_single (l : List Char) (w : PrometheusWrapper) :
    processSegs [l] w = Except.ok { w with last_line := w.last_line ++ l } := rfl

theorem processSegs_cons₂ (l l2 : List Char) (ls : List (List Char))
    (w : PrometheusWrapper) :
    processSegs (l :: l2 :: ls) w =
      (handleLine { w with last_line := w.last_line ++ l } >>=
        processSegs (l2 :: ls)) := rfl

theorem processSegs_single_nil (w : PrometheusWrapper) :
    processSegs [[]] w = Except.ok w := by
  rw [processSegs_single, List.append_nil]

theorem charFold_eq_processSegs (s : List Char) (w : PrometheusWrapper) :
    s.foldlM charStep w = processSegs (splitNl s) w := by
  induction s generalizing w with
  | nil =>
    rw [show ([] : List Char).foldlM charStep w = Except.ok w from rfl,
      show splitNl [] = [[]] from rfl, processSegs_single_nil]
  | cons c rest ih =>
    obtain ⟨sh, st, hsp⟩ : ∃ sh st, splitNl rest = sh :: st := by
      cases hsp : splitNl rest with
      | nil => exact absurd hsp (splitNl_ne_nil rest)
      | cons sh st => exact ⟨sh, st, rfl⟩
    by_cases hc : c = '\n'
    · subst hc
      rw [show ('\n' :: rest).foldlM charStep w =
        (handleLine w >>= fun w1 => rest.foldlM charStep w1) from rfl]
      rw [show splitNl ('\n' :: rest) = [] :: splitNl rest from by
        rw [splitNl, if_pos rfl]]
      rw [hsp, processSegs_cons₂, List.append_nil]
      cases hh : handleLine w with
      | error e => rw [except_bind_error, except_bind_error]
      | ok w1 =>
        rw [except_bind_ok, except_bind_ok, ih, hsp]
    · rw [show (c :: rest).foldlM charStep w =
        ((if c = '\n' then handleLine w
          else Except.ok { w with last_line := w.last_line ++ [c] }) >>=
            fun w1 => rest.foldlM charStep w1) from rfl]
      rw [if_neg hc, except_bind_ok, ih, hsp]
      rw [show splitNl (c :: rest) = (c :: sh) :: st from by
        rw [splitNl, if_neg hc, hsp]]
      cases st with
      | nil =>
        rw [processSegs_single, processSegs_single]
        rw [show ({ w with last_line := w.last_line ++ [c] } :
          PrometheusWrapper).last_line = w.last_line ++ [c] from rfl]
        rw [← List.append_cons]
      | cons s2 st2 =>
        rw [processSegs_cons₂, processSegs_cons₂]
        rw [show ({ w with last_line := w.last_line ++ [c] } :
          PrometheusWrapper).last_line = w.last_line ++ [c] from rfl]
        rw [← List.append_cons]

theorem writeLines_false_eq (segs : List (List Char)) (w : PrometheusWrapper) :
    writeLines false segs w = processSegs segs w := by
  induction segs generalizing w with
  | nil => rfl
  | cons l ls ih =>
    cases ls with
    | nil =>
      rw [show writeLines false [l] w =
        Except.ok { w with last_line := w.last_line ++ l } from by
          rw [writeLines]
          rw [if_neg (by simp)]]
      rw [processSegs_single]
    | cons l2 ls2 =>
      rw [show writeLines false (l :: l2 :: ls2) w =
        (handleLine { w with last_line := w.last_line ++ l } >>=
          writeLines false (l2 :: ls2)) from rfl]
      rw [processSegs_cons₂]
      cases hh : handleLine { w with last_line := w.last_line ++ l } with
      | error e => rw [except_bind_error, except_bind_error]
      | ok w1 => rw [except_bind_ok, except_bind_ok, ih]

theorem writeLines_true_dropLast (segs : List (List Char)) (w : PrometheusWrapper)
    (hlast : segs.getLast? = some []) :
    writeLines true segs.dropLast w = processSegs segs w := by
  induction segs generalizing w with
  | nil => cases hlast
  | cons l ls ih =>
    cases ls with
    | nil =>
      rw [List.getLast?_singleton, Option.some_inj] at hlast
      subst hlast
      rw [show ([[]] : List (List Char)).dropLast = [] from rfl,
        show writeLines true [] w = Except.ok w from rfl, processSegs_single_nil]
    | cons l2 ls2 =>
      rw [List.getLast?_cons_cons] at hlast
      rw [show (l :: l2 :: ls2).dropLast = l :: (l2 :: ls2).dropLast from rfl]
      rw [processSegs_cons₂]
      cases hd : (l2 :: ls2).dropLast with
      | nil =>
        have hls2 : ls2 = [] := by
          have hlen := congrArg List.length hd
          rw [List.length_dropLast] at hlen
          simp only [List.length_cons, List.length_nil] at hlen
          exact List.length_eq_zero.mp (by omega)
        subst hls2
        rw [List.getLast?_singleton, Option.some_inj] at hlast
        subst hlast
        rw [show writeLines true [l] w =
          handleLine { w with last_line := w.last_line ++ l } from by
            rw [writeLines, if_pos rfl]]
        cases hh : handleLine { w with last_line := w.last_line ++ l } with
        | error e => rw [except_bind_error]
        | ok w1 => rw [except_bind_ok, processSegs_single_nil]
      | cons d ds =>
        rw [show writeLines true (l :: d :: ds) w =
          (handleLine { w with last_line := w.last_line ++ l } >>=
            writeLines true (d :: ds)) from rfl]
        cases hh : handleLine { w with last_line := w.last_line ++ l } with
        | error e => rw [except_bind_error, except_bind_error]
        | ok w1 =>
          rw [except_bind_ok, except_bind_ok, ← hd, ih w1 hlast]

theorem mem_splitNl_mem (s : List Char) (seg : List Char) (hseg : seg ∈ splitNl s)
    (c : Char) (hc : c ∈ seg) : c ∈ s := by
  induction s generalizing seg with
  | nil =>
    rw [show splitNl [] = [[]] from rfl, List.mem_singleton] at hseg
    subst hseg
    cases hc
  | cons c0 rest ih =>
    rw [splitNl] at hseg
    by_cases h0 : c0 = '\n'
    · rw [if_pos h0, List.mem_cons] at hseg
      rcases hseg with rfl | hseg
      · cases hc
      · exact List.mem_cons_of_mem _ (ih seg hseg hc)
    · rw [if_neg h0] at hseg
      cases hsp : splitNl rest with
      | nil => exact absurd hsp (splitNl_ne_nil rest)
      | cons sh st =>
        rw [hsp, List.mem_cons] at hseg
        rcases hseg with rfl | hseg
        · rcases List.mem_cons.mp hc with rfl | hc2
          · exact List.mem_cons_self _ _
          · exact List.mem_cons_of_mem _ (ih sh (by rw [hsp]; exact List.mem_cons_self _ _) hc2)
        · exact List.mem_cons_of_mem _ (ih seg (by rw [hsp]; exact List.mem_cons_of_mem _ hseg) hc)

theorem stripCr_of_no_cr (seg : List Char) (h : '\r' ∉ seg) : stripCr seg = seg := by
  rw [stripCr]
  cases hlast : seg.getLast? with
  | none => rw [if_neg (fun hx => Option.noConfusion hx)]
  | some c =>
    by_cases hc : c = '\r'
    · subst hc
      exact absurd (List.mem_of_mem_getLast? (Option.mem_def.mpr hlast)) h
    · rw [if_neg (fun hx => hc (Option.some_inj.mp hx))]

theorem dropLast_map_stripCr (s : List Char) (hcr : '\r' ∉ s) :
    (splitNl s).dropLast.map stripCr = (splitNl s).dropLast := by
  rw [List.map_congr_left, List.map_id]
  intro seg hseg
  exact stripCr_of_no_cr seg
    (fun hc => hcr (mem_splitNl_mem s seg (List.dropLast_subset _ hseg) '\r' hc))


theorem splitNl_singleton (s l : List Char) (h : splitNl s = [l]) : '\n' ∉ s := by
  induction s generalizing l with
  | nil => exact fun hx => List.not_mem_nil _ hx
  | cons c rest ih =>
    rw [splitNl] at h
    by_cases hc : c = '\n'
    · rw [if_pos hc] at h
      cases hsp : splitNl rest with
      | nil => exact absurd hsp (splitNl_ne_nil rest)
      | cons sh st =>
        rw [hsp] at h
        cases h
    · rw [if_neg hc] at h
      cases hsp : splitNl rest with
      | nil => exact absurd hsp (splitNl_ne_nil rest)
      | cons sh st =>
        rw [hsp] at h
        have hst : st = [] := (List.cons.injEq _ _ _ _ ▸ h).2
        intro hmem
        rcases List.mem_cons.mp hmem with hcc | hmem2
        · exact hc hcc.symm
        · exact ih sh (by rw [hsp, hst]) hmem2

theorem splitNl_last_empty (s : List Char) :
    (splitNl s).getLast? = some [] ↔ (s = [] ∨ s.getLast? = some '\n') := by
  induction s with
  | nil =>
    constructor
    · intro _; exact Or.inl rfl
    · intro _; rfl
  | cons c rest ih =>
    rw [splitNl]
    obtain ⟨sh, st, hsp⟩ : ∃ sh st, splitNl rest = sh :: st := by
      cases hsp : splitNl rest with
      | nil => exact absurd hsp (splitNl_ne_nil rest)
      | cons sh st => exact ⟨sh, st, rfl⟩
    by_cases hc : c = '\n'
    · subst hc
      rw [if_pos rfl, hsp, List.getLast?_cons_cons, ← hsp, ih]
      cases rest with
      | nil =>
        constructor
        · intro _; exact Or.inr rfl
        · intro _; exact Or.inl rfl
      | cons r rs =>
        rw [List.getLast?_cons_cons]
        constructor
        · intro hx
          rcases hx with hx | hx
          · cases hx
          · exact Or.inr hx
        · intro hx
          rcases hx with hx | hx
          · cases hx
          · exact Or.inr hx
    · rw [if_neg hc, hsp]
      cases st with
      | nil =>
        rw [List.getLast?_singleton]
        constructor
        · intro hx
          cases Option.some_inj.mp hx
        · intro hx
          rcases hx with hx | hx
          · cases hx
          · exfalso
            have hnomem : '\n' ∉ rest := splitNl_singleton rest sh hsp
            cases rest with
            | nil =>
              rw [List.getLast?_singleton, Option.some_inj] at hx
              exact hc hx
            | cons r rs =>
              rw [List.getLast?_cons_cons] at hx
              exact hnomem (List.mem_of_mem_getLast? (Option.mem_def.mpr hx))
      | cons t ts =>
        have hgl : (t :: ts).getLast? = (splitNl rest).getLast? := by
          rw [hsp, List.getLast?_cons_cons]
        rw [List.getLast?_cons_cons, hgl, ih]
        have hrest : rest ≠ [] := by
          intro hx
          rw [hx] at hsp
          cases hsp
        cases rest with
        | nil => exact absurd rfl hrest
        | cons r rs =>
          rw [List.getLast?_cons_cons]
          constructor
          · intro hx
            rcases hx with hx | hx
            · cases hx
            · exact Or.inr hx
          · intro hx
            rcases hx with hx | hx
            · cases hx
            · exact Or.inr hx

theorem rustLines_last_nil (s : List Char) (hlast : (splitNl s).getLast? = some []) :
    rustLines s = (splitNl s).dropLast.map stripCr := by
  rw [rustLines, hlast]

theorem rustLines_last_cons (s : List Char) (c : Char) (cs : List Char)
    (hlast : (splitNl s).getLast? = some (c :: cs)) :
    rustLines s = (splitNl s).dropLast.map stripCr ++ [c :: cs] := by
  rw [rustLines, hlast]

theorem writeStr_eq_processSegs (s : List Char) (w : PrometheusWrapper)
    (hcr : '\r' ∉ s) : writeStr s w = processSegs (splitNl s) w := by
  cases hlast : (splitNl s).getLast? with
  | none => exact absurd (List.getLast?_eq_none_iff.mp hlast) (splitNl_ne_nil s)
  | some l =>
    cases l with
    | nil =>
      rw [writeStr, rustLines_last_nil s hlast, dropLast_map_stripCr s hcr]
      rcases (splitNl_last_empty s).mp hlast with hse | hnl
      · subst hse
        rw [show splitNl ([] : List Char) = [[]] from rfl]
        rw [show ([[]] : List (List Char)).dropLast = [] from rfl]
        rw [show writeLines (decide (([] : List Char).getLast? = some '\n')) [] w =
          Except.ok w from rfl]
        rw [processSegs_single_nil]
      · rw [show (decide (s.getLast? = some '\n')) = true from decide_eq_true hnl]
        exact writeLines_true_dropLast _ w hlast
    | cons c cs =>
      rw [writeStr, rustLines_last_cons s c cs hlast, dropLast_map_stripCr s hcr]
      have hnnl : s.getLast? ≠ some '\n' := by
        intro hx
        have hse := (splitNl_last_empty s).mpr (Or.inr hx)
        rw [hlast] at hse
        cases Option.some_inj.mp hse
      rw [show (decide (s.getLast? = some '\n')) = false from decide_eq_false hnnl]
      rw [show (splitNl s).dropLast ++ [c :: cs] = splitNl s from by
        conv_rhs => rw [← List.dropLast_append_getLast? _ (Option.mem_def.mpr hlast)]]
      exact writeLines_false_eq _ w

theorem charFold_eq_writeStr (s : List Char) (w : PrometheusWrapper)
    (hcr : '\r' ∉ s) : writeStr s w = s.foldlM charStep w := by
  rw [writeStr_eq_processSegs s w hcr, charFold_eq_processSegs]

theorem writeStr_append (s t : List Char) (w : PrometheusWrapper)
    (hs : '\r' ∉ s) (ht : '\r' ∉ t) :
    writeStr (s ++ t) w = (writeStr s w >>= writeStr t) := by
  have hst : '\r' ∉ s ++ t := by
    intro hx
    rcases List.mem_append.mp hx with hx | hx
    · exact hs hx
    · exact ht hx
  rw [charFold_eq_writeStr _ _ hst, charFold_eq_writeStr s w hs, List.foldlM_append]
  cases hres : s.foldlM charStep w with
  | error e => rw [except_bind_error, except_bind_error]
  | ok w1 => rw [except_bind_ok, except_bind_ok, charFold_eq_writeStr t w1 ht]


theorem writeStr_chunks (chunks : List (List Char)) (w : PrometheusWrapper)
    (h : ∀ c ∈ chunks, '\r' ∉ c) :
    chunks.foldlM (fun acc s => writeStr s acc) w = writeStr chunks.flatten w := by
  induction chunks generalizing w with
  | nil => rfl
  | cons c cs ih =>
    have hc : '\r' ∉ c := h c (List.mem_cons_self _ _)
    have hcs : ∀ x ∈ cs, '\r' ∉ x := fun x hx => h x (List.mem_cons_of_mem _ hx)
    have hjoin : '\r' ∉ cs.flatten := by
      intro hx
      obtain ⟨l, hl, hxl⟩ := List.mem_flatten.mp hx
      exact hcs l hl hxl
    rw [List.flatten_cons, writeStr_append c cs.flatten w hc hjoin]
    rw [show (c :: cs).foldlM (fun acc s => writeStr s acc) w =
      (writeStr c w >>= cs.foldlM (fun acc s => writeStr s acc)) from rfl]
    cases hres : writeStr c w with
    | error e => rw [except_bind_error, except_bind_error]
    | ok w1 => rw [except_bind_ok, except_bind_ok, ih w1 hcs]

/-- C7 counterexample: splitting the input `"x y\r\n"` into the chunks
`"x y\r"` and `"\n"` changes the translator's output (Rust's `str::lines`
strips the `"\r"` of a `"\r\n"` terminator only when both characters arrive in
the same chunk), so chunking-invariance fails for arbitrary input strings. -/
theorem c7_counterexample :
    (("x y\r\n").toList = ("x y\r").toList ++ ("\n").toList) ∧
      ((do
          let w1 ← writeStr (("x y\r").toList) (PrometheusWrapper.new false false)
          let w2 ← writeStr (("\n").toList) w1
          flushWrapper w2).map PrometheusWrapper.out =
        Except.ok [("x y\r").toList]) ∧
      ((do
          let w2 ← writeStr (("x y\r\n").toList) (PrometheusWrapper.new false false)
          flushWrapper w2).map PrometheusWrapper.out =
        Except.ok [("x y").toList]) ∧
      (do
        let w1 ← writeStr (("x y\r").toList) (PrometheusWrapper.new false false)
        let w2 ← writeStr (("\n").toList) w1
        flushWrapper w2) ≠
      (do
        let w2 ← writeStr (("x y\r\n").toList) (PrometheusWrapper.new false false)
        flushWrapper w2) := by
  refine ⟨rfl, rfl, rfl, ?_⟩
  intro h
  have hmaps := congrArg (Except.map PrometheusWrapper.out) h
  have e1 : (do
      let w1 ← writeStr (("x y\r").toList) (PrometheusWrapper.new false false)
      let w2 ← writeStr (("\n").toList) w1
      flushWrapper w2).map PrometheusWrapper.out =
    Except.ok [("x y\r").toList] := rfl
  have e2 : (do
      let w2 ← writeStr (("x y\r\n").toList) (PrometheusWrapper.new false false)
      flushWrapper w2).map PrometheusWrapper.out =
    Except.ok [("x y").toList] := rfl
  rw [e1, e2] at hmaps
  have h2 := Except.ok.inj hmaps
  revert h2
  decide

/-- C7 (amended): for input free of carriage returns the translator is
chunking-invariant — writing any chunk sequence and then flushing equals
writing the concatenation and flushing — and `flush` emits the buffered
partial line exactly once (it is a no-op on an empty buffer, processes a
non-empty buffer through the ordinary line handler, and leaves a state whose
buffer is empty, on which flushing again emits nothing). -/
theorem c7_chunking_invariance :
    (∀ (chunks : List (List Char)) (w : PrometheusWrapper),
      (∀ c ∈ chunks, '\r' ∉ c) →
      (chunks.foldlM (fun acc s => writeStr s acc) w >>= flushWrapper) =
        (writeStr chunks.flatten w >>= flushWrapper)) ∧
    (∀ w : PrometheusWrapper, w.last_line = [] → flushWrapper w = Except.ok w) ∧
    (∀ w : PrometheusWrapper, w.last_line ≠ [] → flushWrapper w = handleLine w) ∧
    (∀ w w2 : PrometheusWrapper, flushWrapper w = Except.ok w2 →
      w2.last_line = [] ∧ flushWrapper w2 = Except.ok w2) := by
  refine ⟨?_, ?_, ?_, ?_⟩
  · intro chunks w h
    rw [writeStr_chunks chunks w h]
  · intro w hl
    rw [flushWrapper, if_pos hl]
  · intro w hl
    rw [flushWrapper, if_neg hl]
  · intro w w2 h
    rw [flushWrapper] at h
    by_cases hl : w.last_line = []
    · rw [if_pos hl] at h
      obtain rfl := Except.ok.inj h
      exact ⟨hl, by rw [flushWrapper, if_pos hl]⟩
    · rw [if_neg hl] at h
      obtain ⟨_, _, hlast, _⟩ := handleLine_ok_shape _ _ h
      exact ⟨hlast, by rw [flushWrapper, if_pos hlast]⟩

/-- C7 witness: three carriage-return-free chunks splitting one logical line. -/
theorem c7_chunking_invariance_witness :
    (∀ c ∈ [("# TY").toList, ("PE m cou").toList, ("nter\nm 3\n").toList],
        '\r' ∉ c) ∧
      (([("# TY").toList, ("PE m cou").toList, ("nter\nm 3\n").toList].foldlM
          (fun acc s => writeStr s acc) (PrometheusWrapper.new false false) >>=
            flushWrapper) =
        (writeStr ([("# TY").toList, ("PE m cou").toList,
            ("nter\nm 3\n").toList].flatten) (PrometheusWrapper.new false false) >>=
          flushWrapper)) :=
  ⟨by decide, c7_chunking_invariance.1 _ (PrometheusWrapper.new false false) (by decide)⟩

/-- C5 counterexample: encoding in the pull-compatible
(`OpenMetricsForPrometheus`) format leaves an Info metric's TYPE line
unchanged — `translate_info_metrics_type` is only enabled for
`Format::Prometheus` — so the kind token is not rewritten to `gauge`. -/
theorem c5_counterexample :
    encodeFormat Format.openMetricsForPrometheus
        (("# TYPE m info\nm_info 1\n").toList) =
      Except.ok [("# TYPE m info").toList, ("m 1").toList] ∧
    ("# TYPE m info").toList ≠ ("# TYPE m gauge").toList := by
  constructor
  · rfl
  · decide

/-- C5 (amended): in the pull-compatible format the `_info` suffix is stripped
from an Info metric's sample lines (wherever the stripped name equals the last
TYPE-declared name), but TYPE lines pass through verbatim; the kind token is
rewritten to `gauge` only by the `Prometheus` format. -/
theorem c5_omfp_info_handling :
    (∀ (w : PrometheusWrapper) (td : List Char) (md : MetricTypeDefinition),
      w.translate_info_metrics_type = false →
      w.last_line = typeMarker ++ td →
      MetricTypeDefinition.parse td = Except.ok md →
      handleLine w = Except.ok { w with
        last_line := []
        last_metric_definition := some md
        out := w.out ++ [typeMarker ++ td] }) ∧
    encodeFormat Format.openMetricsForPrometheus
        (("# TYPE m info\nm_info 1\n# EOF\n").toList) =
      Except.ok [("# TYPE m info").toList, ("m 1").toList, ("# EOF").toList] ∧
    encodeFormat Format.prometheus
        (("# TYPE m info\nm_info 1\n# EOF\n").toList) =
      Except.ok [("# TYPE m gauge").toList, ("m 1").toList] := by
  refine ⟨?_, rfl, rfl⟩
  intro w td md htr hline hparse
  rw [handleLine]
  have hne : ¬(w.last_line = eofLine ∧ w.remove_eof_terminator = true) := by
    intro hx
    rw [hline] at hx
    exact typeMarker_append_ne_eofLine td hx.1
  rw [if_neg hne]
  have hstrip : stripPre typeMarker w.last_line = some td := by
    rw [hline, stripPre, if_pos (List.isPrefixOf_iff_prefix.mpr ⟨td, rfl⟩),
      List.drop_left]
  rw [hstrip]
  simp only [hparse]
  rw [if_neg (fun hx => by rw [htr] at hx; cases hx.1)]
  rw [hline]
  rfl

/-- C5 amended-claim witness: a wrapper in pull-compatible configuration about
to handle the line `# TYPE m info`. -/
theorem c5_omfp_info_handling_witness :
    ((PrometheusWrapper.mk false false none (("# TYPE m info").toList)
          []).translate_info_metrics_type = false) ∧
      ((("# TYPE m info").toList : List Char) =
        typeMarker ++ (("m info").toList)) ∧
      (MetricTypeDefinition.parse (("m info").toList) =
        Except.ok ⟨("m").toList, MetricType.info⟩) ∧
      handleLine (PrometheusWrapper.mk false false none
          (("# TYPE m info").toList) []) =
        Except.ok (PrometheusWrapper.mk false false
          (some ⟨("m").toList, MetricType.info⟩) [] [("# TYPE m info").toList]) :=
  ⟨rfl, by decide, rfl,
    c5_omfp_info_handling.1 (PrometheusWrapper.mk false false none
        (("# TYPE m info").toList) [])
      (("m info").toList) ⟨("m").toList, MetricType.info⟩ rfl (by decide) rfl⟩

theorem testBit_div_pow (n i j : ℕ) : (n / 2 ^ i).testBit j = n.testBit (i + j) := by
  rw [Nat.testBit_to_div_mod, Nat.testBit_to_div_mod, Nat.div_div_eq_div_mul, ← pow_add]

theorem and_FRACTION_MASK (bits : ℕ) : bits &&& FRACTION_MASK = fracField bits := by
  have hmask : FRACTION_MASK = 2 ^ 52 - 1 := by
    rw [FRACTION_MASK, Nat.shiftLeft_eq, one_mul]
  rw [hmask, Nat.and_pow_two_sub_one_eq_mod, fracField]

theorem and_SIGN_MASK (bits : ℕ) : bits &&& SIGN_MASK = 2 ^ 63 * signField bits := by
  have hmask : SIGN_MASK = 2 ^ 63 := by rw [SIGN_MASK, Nat.shiftLeft_eq, one_mul]
  rw [hmask, Nat.and_two_pow, signField, Nat.testBit_to_div_mod]
  rcases Nat.mod_two_eq_zero_or_one (bits / 2 ^ 63) with h | h <;> rw [h] <;> simp

theorem and_EXPONENT_MASK (bits : ℕ) : bits &&& EXPONENT_MASK = 2 ^ 52 * expField bits := by
  have hmask : EXPONENT_MASK = 2 ^ 52 * (2 ^ 11 - 1) := by
    rw [EXPONENT_MASK, Nat.shiftLeft_eq]
    norm_num
  rw [hmask]
  apply Nat.eq_of_testBit_eq
  intro i
  rw [Nat.testBit_and, Nat.testBit_mul_pow_two, Nat.testBit_mul_pow_two,
    Nat.testBit_two_pow_sub_one, expField, Nat.testBit_mod_two_pow, testBit_div_pow]
  by_cases h : 52 ≤ i
  · have he : 52 + (i - 52) = i := by omega
    rw [he, decide_eq_true h, Bool.true_and, Bool.true_and, Bool.and_comm]
  · rw [decide_eq_false h, Bool.false_and, Bool.false_and, Bool.and_false]

theorem decomposed_new (bits : ℕ) :
    DecomposedF64.new bits =
      ⟨2 ^ 63 * signField bits, 2 ^ 52 * expField bits, fracField bits⟩ := by
  rw [DecomposedF64.new, and_SIGN_MASK, and_EXPONENT_MASK, and_FRACTION_MASK]

theorem new_is_nan_iff (bits : ℕ) :
    (DecomposedF64.new bits).is_nan ↔ IsNanBits bits := by
  rw [decomposed_new]
  show (2 ^ 52 * expField bits = EXPONENT_MASK ∧ fracField bits ≠ 0) ↔ _
  rw [IsNanBits, EXPONENT_MASK, Nat.shiftLeft_eq]
  omega

theorem new_is_subnormal_iff (bits : ℕ) :
    (DecomposedF64.new bits).is_subnormal ↔ IsSubnormalBits bits := by
  rw [decomposed_new]
  show (2 ^ 52 * expField bits = 0 ∧ fracField bits ≠ 0) ↔ _
  rw [IsSubnormalBits]
  omega

theorem new_is_zero_iff (bits : ℕ) :
    (DecomposedF64.new bits).is_zero ↔ IsZeroBits bits := by
  rw [decomposed_new]
  show (2 ^ 52 * expField bits = 0 ∧ fracField bits = 0) ↔ _
  rw [IsZeroBits]
  omega

theorem compare_u64_lt {a b : ℕ} (h : a < b) : compare_u64 a b = Ordering.lt := by
  rw [compare_u64, if_pos h]

theorem compare_u64_gt {a b : ℕ} (h : b < a) : compare_u64 a b = Ordering.gt := by
  rw [compare_u64, if_neg (by omega), if_pos h]

theorem compare_u64_eq {a b : ℕ} (h : a = b) : compare_u64 a b = Ordering.eq := by
  rw [compare_u64, if_neg (by omega), if_neg (by omega)]

theorem compare_u64_mul (k a b : ℕ) (hk : 0 < k) :
    compare_u64 (k * a) (k * b) = compare_u64 a b := by
  rcases lt_trichotomy a b with h | h | h
  · rw [compare_u64_lt ((Nat.mul_lt_mul_left hk).mpr h), compare_u64_lt h]
  · rw [h, compare_u64_eq rfl, compare_u64_eq rfl]
  · rw [compare_u64_gt ((Nat.mul_lt_mul_left hk).mpr h), compare_u64_gt h]

theorem sign01 (bits : ℕ) : signField bits = 0 ∨ signField bits = 1 := by
  rw [signField]; omega

theorem expField_lt (bits : ℕ) : expField bits < 2 ^ 11 :=
  Nat.mod_lt _ (by norm_num)

theorem fracField_lt (bits : ℕ) : fracField bits < 2 ^ 52 :=
  Nat.mod_lt _ (by norm_num)

theorem finiteVal_zero (s : ℕ) : finiteVal s 0 0 = 0 := by
  rw [finiteVal]
  norm_num

theorem finiteVal_pos_formula (e f : ℕ) (he : e ≠ 0) :
    finiteVal 0 e f = (2 ^ 52 + (f : ℚ)) * (2 : ℚ) ^ ((e : ℤ) - 1075) := by
  rw [finiteVal, if_pos rfl, if_neg he, if_neg he, one_mul]

theorem finiteVal_one (e f : ℕ) : finiteVal 1 e f = -finiteVal 0 e f := by
  rw [finiteVal, finiteVal, if_neg one_ne_zero, if_pos rfl]
  ring

theorem finiteVal_pos (e f : ℕ) (he : e ≠ 0) : 0 < finiteVal 0 e f := by
  rw [finiteVal_pos_formula e f he]
  positivity

theorem finiteVal_nonneg (e f : ℕ) : 0 ≤ finiteVal 0 e f := by
  by_cases he : e = 0
  · rw [finiteVal, if_pos rfl, one_mul, if_pos he, if_pos he]
    positivity
  · exact le_of_lt (finiteVal_pos e f he)

theorem finiteVal_strict_exp (e1 f1 e2 f2 : ℕ) (h : e1 < e2) (hsub : e1 = 0 → f1 = 0)
    (hf1 : f1 < 2 ^ 52) : finiteVal 0 e1 f1 < finiteVal 0 e2 f2 := by
  have he2 : e2 ≠ 0 := by omega
  rw [finiteVal_pos_formula e2 f2 he2]
  by_cases he1 : e1 = 0
  · rw [he1, hsub he1, finiteVal_zero]
    positivity
  · rw [finiteVal_pos_formula e1 f1 he1]
    have hq1 : (f1 : ℚ) < 2 ^ 52 := by exact_mod_cast hf1
    have hq2 : (0 : ℚ) ≤ (f2 : ℚ) := Nat.cast_nonneg f2
    have hexp : ((e1 : ℤ) - 1075) + 1 ≤ (e2 : ℤ) - 1075 := by omega
    have h53 : (2 : ℚ) ^ 53 = 2 ^ 52 + 2 ^ 52 := by norm_num
    calc (2 ^ 52 + (f1 : ℚ)) * (2 : ℚ) ^ ((e1 : ℤ) - 1075)
        < (2 ^ 53) * (2 : ℚ) ^ ((e1 : ℤ) - 1075) := by
          refine mul_lt_mul_of_pos_right ?_ (by positivity)
          rw [h53]
          linarith
      _ = (2 ^ 52) * (2 : ℚ) ^ (((e1 : ℤ) - 1075) + 1) := by
          rw [zpow_add_one₀ (by norm_num : (2 : ℚ) ≠ 0)]
          ring
      _ ≤ (2 ^ 52) * (2 : ℚ) ^ ((e2 : ℤ) - 1075) := by
          exact mul_le_mul_of_nonneg_left (zpow_le_zpow_right₀ one_le_two hexp)
            (by positivity)
      _ ≤ (2 ^ 52 + (f2 : ℚ)) * (2 : ℚ) ^ ((e2 : ℤ) - 1075) := by
          exact mul_le_mul_of_nonneg_right (by linarith) (by positivity)

theorem finiteVal_strict_frac (e f1 f2 : ℕ) (he : e ≠ 0) (h : f1 < f2) :
    finiteVal 0 e f1 < finiteVal 0 e f2 := by
  rw [finiteVal_pos_formula e f1 he, finiteVal_pos_formula e f2 he]
  have hq : (f1 : ℚ) < (f2 : ℚ) := by exact_mod_cast h
  exact mul_lt_mul_of_pos_right (by linarith) (by positivity)

theorem fin_lt_pinf (q : ℚ) : XRat.fin q < XRat.pinf := by
  rw [XRat.fin, XRat.pinf]
  exact WithBot.coe_lt_coe.mpr (WithTop.coe_lt_top q)

theorem ninf_lt_fin (q : ℚ) : XRat.ninf < XRat.fin q := by
  rw [XRat.ninf, XRat.fin]
  exact WithBot.bot_lt_coe _

theorem ninf_lt_pinf : XRat.ninf < XRat.pinf := by
  rw [XRat.ninf, XRat.pinf]
  exact WithBot.bot_lt_coe _

theorem fin_lt_fin (a b : ℚ) : XRat.fin a < XRat.fin b ↔ a < b := by
  rw [XRat.fin, XRat.fin, WithBot.coe_lt_coe, WithTop.coe_lt_coe]


theorem posVal_lt (e1 f1 e2 f2 : ℕ)
    (hs1 : e1 = 0 → f1 = 0) (hs2 : e2 = 0 → f2 = 0)
    (hf1 : f1 < 2 ^ 52)
    (hi1 : e1 = 0x7ff → f1 = 0) (hi2 : e2 = 0x7ff → f2 = 0)
    (he2 : e2 < 2 ^ 11)
    (hlex : e1 < e2 ∨ (e1 = e2 ∧ f1 < f2)) :
    (if e1 = 0x7ff then XRat.pinf else XRat.fin (finiteVal 0 e1 f1)) <
      (if e2 = 0x7ff then XRat.pinf else XRat.fin (finiteVal 0 e2 f2)) := by
  have h11 : (2 : ℕ) ^ 11 = 2048 := by norm_num
  by_cases hinf2 : e2 = 0x7ff
  · rw [if_pos hinf2]
    have hne1 : e1 ≠ 0x7ff := by
      rcases hlex with h | ⟨h, hf⟩
      · omega
      · intro hx
        have h1 := hi1 hx
        have h2 := hi2 hinf2
        omega
    rw [if_neg hne1]
    exact fin_lt_pinf _
  · rw [if_neg hinf2]
    have hne1 : e1 ≠ 0x7ff := by
      rcases hlex with h | ⟨h, hf⟩ <;> omega
    rw [if_neg hne1, fin_lt_fin]
    rcases hlex with h | ⟨h, hf⟩
    · exact finiteVal_strict_exp e1 f1 e2 f2 h hs1 hf1
    · subst h
      have hne0 : e1 ≠ 0 := by
        intro h0
        have h1 := hs1 h0
        have h2 := hs2 h0
        omega
      exact finiteVal_strict_frac e1 f1 f2 hne0 hf

theorem negVal_lt (e1 f1 e2 f2 : ℕ)
    (hs1 : e1 = 0 → f1 = 0) (hs2 : e2 = 0 → f2 = 0)
    (hf2 : f2 < 2 ^ 52)
    (hi1 : e1 = 0x7ff → f1 = 0) (hi2 : e2 = 0x7ff → f2 = 0)
    (he1 : e1 < 2 ^ 11)
    (hlex : e2 < e1 ∨ (e1 = e2 ∧ f2 < f1)) :
    (if e1 = 0x7ff then XRat.ninf else XRat.fin (finiteVal 1 e1 f1)) <
      (if e2 = 0x7ff then XRat.ninf else XRat.fin (finiteVal 1 e2 f2)) := by
  have h11 : (2 : ℕ) ^ 11 = 2048 := by norm_num
  have hne2 : e2 ≠ 0x7ff := by
    rcases hlex with h | ⟨h, hf⟩
    · omega
    · intro hx
      have h1 := hi1 (h.trans hx)
      have h2 := hi2 hx
      omega
  rw [if_neg hne2]
  by_cases hinf1 : e1 = 0x7ff
  · rw [if_pos hinf1]
    exact ninf_lt_fin _
  · rw [if_neg hinf1, fin_lt_fin, finiteVal_one e1 f1, finiteVal_one e2 f2,
      neg_lt_neg_iff]
    rcases hlex with h | ⟨h, hf⟩
    · exact finiteVal_strict_exp e2 f2 e1 f1 h hs2 hf2
    · subst h
      have hne0 : e1 ≠ 0 := by
        intro h0
        have h1 := hs1 h0
        have h2 := hs2 h0
        omega
      exact finiteVal_strict_frac e1 f2 f1 hne0 hf

theorem negVal_lt_posVal (ep fp en fn : ℕ)
    (hp : ep = 0 → fp = 0) (hn : en = 0 → fn = 0)
    (hnz : ¬(ep = 0 ∧ fp = 0) ∨ ¬(en = 0 ∧ fn = 0)) :
    (if en = 0x7ff then XRat.ninf else XRat.fin (finiteVal 1 en fn)) <
      (if ep = 0x7ff then XRat.pinf else XRat.fin (finiteVal 0 ep fp)) := by
  by_cases hin : en = 0x7ff
  · rw [if_pos hin]
    by_cases hip : ep = 0x7ff
    · rw [if_pos hip]
      exact ninf_lt_pinf
    · rw [if_neg hip]
      exact ninf_lt_fin _
  · rw [if_neg hin]
    by_cases hip : ep = 0x7ff
    · rw [if_pos hip]
      exact fin_lt_pinf _
    · rw [if_neg hip, fin_lt_fin, finiteVal_one]
      rcases hnz with h | h
      · have hep : ep ≠ 0 := fun h0 => h ⟨h0, hp h0⟩
        have h1 : 0 < finiteVal 0 ep fp := finiteVal_pos ep fp hep
        have h2 : 0 ≤ finiteVal 0 en fn := finiteVal_nonneg en fn
        linarith
      · have hen : en ≠ 0 := fun h0 => h ⟨h0, hn h0⟩
        have h1 : 0 < finiteVal 0 en fn := finiteVal_pos en fn hen
        have h2 : 0 ≤ finiteVal 0 ep fp := finiteVal_nonneg ep fp
        linarith

theorem semVal_of_not_nan (bits : ℕ) (hn : ¬IsNanBits bits) :
    semVal bits = some (if expField bits = 0x7ff
      then (if signField bits = 0 then XRat.pinf else XRat.ninf)
      else XRat.fin (finiteVal (signField bits) (expField bits) (fracField bits))) := by
  rw [semVal]
  by_cases hi : expField bits = 0x7ff
  · have hf : fracField bits = 0 := by
      by_contra hf
      exact hn ⟨hi, hf⟩
    rw [if_pos hi, if_pos hf, if_pos hi]
  · rw [if_neg hi, if_neg hi]

theorem f64PartialCmp_eq (l r : ℕ) (A B : XRat) (hA : semVal l = some A)
    (hB : semVal r = some B) : f64PartialCmp l r = some (cmp A B) := by
  rw [f64PartialCmp, hA, hB]

theorem compare_f64_unfold (l r : ℕ) :
    compare_f64 l r =
      (if IsNanBits l ∨ IsNanBits r ∨ IsSubnormalBits l ∨ IsSubnormalBits r then none
      else if IsZeroBits l ∧ IsZeroBits r then some Ordering.eq
      else if (compare_u64 (signField l) (signField r)).swap ≠ Ordering.eq then
        some (compare_u64 (signField l) (signField r)).swap
      else if (if signField l ≠ 0 then (compare_u64 (expField l) (expField r)).swap
          else compare_u64 (expField l) (expField r)) ≠ Ordering.eq then
        some (if signField l ≠ 0 then (compare_u64 (expField l) (expField r)).swap
          else compare_u64 (expField l) (expField r))
      else
        some (if signField l ≠ 0 then (compare_u64 (fracField l) (fracField r)).swap
          else compare_u64 (fracField l) (fracField r))) := by
  have hc63 : ∀ a b : ℕ, compare_u64 (2 ^ 63 * a) (2 ^ 63 * b) = compare_u64 a b :=
    fun a b => compare_u64_mul _ a b (by norm_num)
  have hc52 : ∀ a b : ℕ, compare_u64 (2 ^ 52 * a) (2 ^ 52 * b) = compare_u64 a b :=
    fun a b => compare_u64_mul _ a b (by norm_num)
  have hne63 : ∀ a : ℕ, (2 ^ 63 * a ≠ 0) ↔ (a ≠ 0) := fun a => by
    constructor <;> intro h <;> omega
  have hsgn : ∀ bits : ℕ, (DecomposedF64.new bits).sign_bit = 2 ^ 63 * signField bits :=
    fun bits => by rw [decomposed_new]
  have hexp : ∀ bits : ℕ,
      (DecomposedF64.new bits).exponent_bits = 2 ^ 52 * expField bits :=
    fun bits => by rw [decomposed_new]
  have hfrac : ∀ bits : ℕ, (DecomposedF64.new bits).fraction_bits = fracField bits :=
    fun bits => by rw [decomposed_new]
  rw [compare_f64]
  simp only [new_is_nan_iff, new_is_subnormal_iff, new_is_zero_iff, hsgn, hexp, hfrac,
    hc63, hc52, hne63]


/-- C4: the compile-time `f64` comparator returns `none` exactly when either
argument is NaN or subnormal; every pair of zeros (`+0.0`/`-0.0` in any
combination) compares `Equal`; and on every other pair of non-NaN,
non-subnormal bit patterns (normal, zero, or infinite) it agrees with the
native IEEE-754 partial ordering derived from the values the bit patterns
denote. -/
theorem c4_compare_f64 (lhs rhs : ℕ) :
    (compare_f64 lhs rhs = none ↔
      IsNanBits lhs ∨ IsNanBits rhs ∨ IsSubnormalBits lhs ∨ IsSubnormalBits rhs) ∧
    (IsZeroBits lhs ∧ IsZeroBits rhs → compare_f64 lhs rhs = some Ordering.eq) ∧
    (¬IsNanBits lhs → ¬IsNanBits rhs → ¬IsSubnormalBits lhs → ¬IsSubnormalBits rhs →
      compare_f64 lhs rhs = f64PartialCmp lhs rhs) := by
  refine ⟨?_, ?_, ?_⟩
  · rw [compare_f64_unfold]
    by_cases hg : IsNanBits lhs ∨ IsNanBits rhs ∨ IsSubnormalBits lhs ∨
        IsSubnormalBits rhs
    · rw [if_pos hg]
      exact iff_of_true rfl hg
    · rw [if_neg hg]
      refine iff_of_false ?_ hg
      by_cases hz : IsZeroBits lhs ∧ IsZeroBits rhs
      · rw [if_pos hz]
        exact fun h => Option.noConfusion h
      · rw [if_neg hz]
        split_ifs <;> simp
  · rintro ⟨hz1, hz2⟩
    obtain ⟨hze1, hzf1⟩ := hz1
    obtain ⟨hze2, hzf2⟩ := hz2
    have hg : ¬(IsNanBits lhs ∨ IsNanBits rhs ∨ IsSubnormalBits lhs ∨
        IsSubnormalBits rhs) := by
      rintro (⟨h1, h2⟩ | ⟨h1, h2⟩ | ⟨h1, h2⟩ | ⟨h1, h2⟩) <;> omega
    rw [compare_f64_unfold, if_neg hg, if_pos ⟨⟨hze1, hzf1⟩, hze2, hzf2⟩]
  · intro hNl hNr hSl hSr
    have hguard : ¬(IsNanBits lhs ∨ IsNanBits rhs ∨ IsSubnormalBits lhs ∨
        IsSubnormalBits rhs) := by
      rintro (h | h | h | h)
      exacts [hNl h, hNr h, hSl h, hSr h]
    have hsub1 : expField lhs = 0 → fracField lhs = 0 := fun h0 => by
      by_contra hf
      exact hSl ⟨h0, hf⟩
    have hsub2 : expField rhs = 0 → fracField rhs = 0 := fun h0 => by
      by_contra hf
      exact hSr ⟨h0, hf⟩
    have hinf1 : expField lhs = 0x7ff → fracField lhs = 0 := fun h0 => by
      by_contra hf
      exact hNl ⟨h0, hf⟩
    have hinf2 : expField rhs = 0x7ff → fracField rhs = 0 := fun h0 => by
      by_contra hf
      exact hNr ⟨h0, hf⟩
    have hfl := fracField_lt lhs
    have hfr := fracField_lt rhs
    have hel := expField_lt lhs
    have her := expField_lt rhs
    rw [f64PartialCmp_eq lhs rhs _ _ (semVal_of_not_nan lhs hNl)
      (semVal_of_not_nan rhs hNr)]
    rw [compare_f64_unfold, if_neg hguard]
    by_cases hz : IsZeroBits lhs ∧ IsZeroBits rhs
    · rw [if_pos hz]
      obtain ⟨⟨hze1, hzf1⟩, hze2, hzf2⟩ := hz
      rw [hze1, hzf1, hze2, hzf2]
      rw [if_neg (show ¬((0 : ℕ) = 0x7ff) by omega),
        if_neg (show ¬((0 : ℕ) = 0x7ff) by omega), finiteVal_zero, finiteVal_zero]
      exact congrArg some ((cmp_eq_eq_iff _ _).mpr rfl).symm
    · rw [if_neg hz]
      rcases sign01 lhs with hg1 | hg1 <;> rcases sign01 rhs with hg2 | hg2
      · rw [hg1, hg2]
        rw [show (compare_u64 0 0).swap = Ordering.eq from rfl,
          if_neg (show ¬(Ordering.eq ≠ Ordering.eq) from fun h => h rfl)]
        simp only [show ((0 : ℕ) ≠ 0) ↔ False from by simp,
          show ((0 : ℕ) = 0) ↔ True from by simp, if_false, if_true]
        rcases lt_trichotomy (expField lhs) (expField rhs) with he | he | he
        · rw [compare_u64_lt he, if_pos (show Ordering.lt ≠ Ordering.eq from
            fun h => Ordering.noConfusion h)]
          refine congrArg some ((cmp_eq_lt_iff _ _).mpr ?_).symm
          exact posVal_lt _ _ _ _ hsub1 hsub2 hfl hinf1 hinf2 her (Or.inl he)
        · rw [compare_u64_eq he,
            if_neg (show ¬(Ordering.eq ≠ Ordering.eq) from fun h => h rfl)]
          rcases lt_trichotomy (fracField lhs) (fracField rhs) with hf | hf | hf
          · rw [compare_u64_lt hf]
            refine congrArg some ((cmp_eq_lt_iff _ _).mpr ?_).symm
            exact posVal_lt _ _ _ _ hsub1 hsub2 hfl hinf1 hinf2 her
              (Or.inr ⟨he, hf⟩)
          · rw [compare_u64_eq hf, he, hf]
            exact congrArg some ((cmp_eq_eq_iff _ _).mpr rfl).symm
          · rw [compare_u64_gt hf]
            refine congrArg some ((cmp_eq_gt_iff _ _).mpr ?_).symm
            exact posVal_lt _ _ _ _ hsub2 hsub1 hfr hinf2 hinf1 hel
              (Or.inr ⟨he.symm, hf⟩)
        · rw [compare_u64_gt he, if_pos (show Ordering.gt ≠ Ordering.eq from
            fun h => Ordering.noConfusion h)]
          refine congrArg some ((cmp_eq_gt_iff _ _).mpr ?_).symm
          exact posVal_lt _ _ _ _ hsub2 hsub1 hfr hinf2 hinf1 hel (Or.inl he)
      · rw [hg1, hg2]
        rw [show (compare_u64 0 1).swap = Ordering.gt from by decide,
          if_pos (show Ordering.gt ≠ Ordering.eq from fun h => Ordering.noConfusion h)]
        simp only [show ((0 : ℕ) = 0) ↔ True from by simp,
          show ((1 : ℕ) = 0) ↔ False from by simp, if_true, if_false]
        refine congrArg some ((cmp_eq_gt_iff _ _).mpr ?_).symm
        refine negVal_lt_posVal (expField lhs) (fracField lhs) (expField rhs)
          (fracField rhs) hsub1 hsub2 ?_
        rcases not_and_or.mp hz with h | h
        · exact Or.inl h
        · exact Or.inr h
      · rw [hg1, hg2]
        rw [show (compare_u64 1 0).swap = Ordering.lt from by decide,
          if_pos (show Ordering.lt ≠ Ordering.eq from fun h => Ordering.noConfusion h)]
        simp only [show ((0 : ℕ) = 0) ↔ True from by simp,
          show ((1 : ℕ) = 0) ↔ False from by simp, if_true, if_false]
        refine congrArg some ((cmp_eq_lt_iff _ _).mpr ?_).symm
        refine negVal_lt_posVal (expField rhs) (fracField rhs) (expField lhs)
          (fracField lhs) hsub2 hsub1 ?_
        rcases not_and_or.mp hz with h | h
        · exact Or.inr h
        · exact Or.inl h
      · rw [hg1, hg2]
        rw [show (compare_u64 1 1).swap = Ordering.eq from rfl,
          if_neg (show ¬(Ordering.eq ≠ Ordering.eq) from fun h => h rfl)]
        simp only [show ((1 : ℕ) ≠ 0) ↔ True from by simp,
          show ((1 : ℕ) = 0) ↔ False from by simp, if_true, if_false]
        rcases lt_trichotomy (expField lhs) (expField rhs) with he | he | he
        · rw [compare_u64_lt he, show Ordering.lt.swap = Ordering.gt from rfl,
            if_pos (show Ordering.gt ≠ Ordering.eq from
              fun h => Ordering.noConfusion h)]
          refine congrArg some ((cmp_eq_gt_iff _ _).mpr ?_).symm
          exact negVal_lt _ _ _ _ hsub2 hsub1 hfl hinf2 hinf1 her (Or.inl he)
        · rw [compare_u64_eq he, show Ordering.eq.swap = Ordering.eq from rfl,
            if_neg (show ¬(Ordering.eq ≠ Ordering.eq) from fun h => h rfl)]
          rcases lt_trichotomy (fracField lhs) (fracField rhs) with hf | hf | hf
          · rw [compare_u64_lt hf, show Ordering.lt.swap = Ordering.gt from rfl]
            refine congrArg some ((cmp_eq_gt_iff _ _).mpr ?_).symm
            exact negVal_lt _ _ _ _ hsub2 hsub1 hfl hinf2 hinf1 her
              (Or.inr ⟨he.symm, hf⟩)
          · rw [compare_u64_eq hf, show Ordering.eq.swap = Ordering.eq from rfl,
              he, hf]
            exact congrArg some ((cmp_eq_eq_iff _ _).mpr rfl).symm
          · rw [compare_u64_gt hf, show Ordering.gt.swap = Ordering.lt from rfl]
            refine congrArg some ((cmp_eq_lt_iff _ _).mpr ?_).symm
            exact negVal_lt _ _ _ _ hsub1 hsub2 hfr hinf1 hinf2 hel
              (Or.inr ⟨he, hf⟩)
        · rw [compare_u64_gt he, show Ordering.gt.swap = Ordering.lt from rfl,
            if_pos (show Ordering.lt ≠ Ordering.eq from
              fun h => Ordering.noConfusion h)]
          refine congrArg some ((cmp_eq_lt_iff _ _).mpr ?_).symm
          exact negVal_lt _ _ _ _ hsub1 hsub2 hfr hinf1 hinf2 hel (Or.inl he)

/-- C4 witness: `1.5` versus `-2.0` (normal values of opposite sign, where the
comparator must agree with the native partial ordering) and `-0.0` versus
`+0.0` (a pair of zeros comparing equal). -/
theorem c4_compare_f64_witness :
    (¬IsNanBits 0x3FF8000000000000 ∧ ¬IsNanBits 0xC000000000000000 ∧
      ¬IsSubnormalBits 0x3FF8000000000000 ∧ ¬IsSubnormalBits 0xC000000000000000) ∧
    compare_f64 0x3FF8000000000000 0xC000000000000000 =
      f64PartialCmp 0x3FF8000000000000 0xC000000000000000 ∧
    (IsZeroBits 0x8000000000000000 ∧ IsZeroBits 0) ∧
    compare_f64 0x8000000000000000 0 = some Ordering.eq :=
  ⟨⟨by decide, by decide, by decide, by decide⟩,
    (c4_compare_f64 0x3FF8000000000000 0xC000000000000000).2.2
      (by decide) (by decide) (by decide) (by decide),
    ⟨by decide, by decide⟩,
    (c4_compare_f64 0x8000000000000000 0).2.1 ⟨by decide, by decide⟩⟩

end Vise
